import Mathlib

/-!
# Shallow embedding of the UV-unwrap pipeline

This file embeds the four source files of the repository
(`topology.cpp`, `seam_detection.cpp`, `lscm.cpp`, `packing.cpp`) as Lean
definitions and proves properties of the natural-language specification
against them.

Modelling conventions:
* C `float` / `double` values are modelled as exact real numbers (`ℝ`);
  machine integers are modelled as `ℕ` / `ℤ` (sentinel values such as
  `-1` keep their integer meaning).
* Null pointers are modelled with `Option`; buffers are Lean lists.
* `std::map` iteration order (sorted keys) is modelled by sorting the
  deduplicated key list.
* Eigen's `SparseLU` direct solver is modelled as an exact oracle that
  succeeds precisely when the square linear system has a unique solution
  and then returns that solution.
-/

namespace UVUnwrap

/-- A triangle: three vertex indices (the C code stores them as a flat
`int` array of length `3F`). -/
abbrev Tri := ℕ × ℕ × ℕ

/-- The mesh data structure (`Mesh` in the C headers): vertex positions
(flat array of `3V` floats, modelled as a list of triples), triangle
vertex indices, and the mutable per-vertex UV buffer (`2V` floats,
modelled as a list of pairs whose length is the vertex count). -/
structure Mesh where
  vertices : List (ℝ × ℝ × ℝ)
  triangles : List Tri
  uvs : List (ℝ × ℝ)

/-- `TopologyInfo` from `topology.h`: parallel arrays of canonical edges
and of the (≤ 2) incident faces per edge (`-1` marks an absent face). -/
structure TopologyInfo where
  edges : List (ℕ × ℕ)
  edge_faces : List (ℤ × ℤ)
deriving DecidableEq

/-- The `Edge(a, b)` constructor of `topology.cpp`: always store the
smaller vertex first. -/
def canonEdge (a b : ℕ) : ℕ × ℕ := if a < b then (a, b) else (b, a)

/-- The three canonical edges `E1 = (a,b)`, `E2 = (a,c)`, `E3 = (b,c)`
extracted from one triangle, in the order the C loop inserts them. -/
def triEdges (t : Tri) : List (ℕ × ℕ) :=
  [canonEdge t.1 t.2.1, canonEdge t.1 t.2.2, canonEdge t.2.1 t.2.2]

/-- The stream of `(edge, face index)` insertions performed by the edge
collection loop of `build_topology`, starting at face index `i`. -/
def edgeEntriesAux (i : ℕ) : List Tri → List ((ℕ × ℕ) × ℕ)
  | [] => []
  | t :: rest => ((triEdges t).map (fun e => (e, i))) ++ edgeEntriesAux (i + 1) rest

/-- All `(edge, face index)` insertions of `build_topology`, in program
order. -/
def edgeEntries (tris : List Tri) : List ((ℕ × ℕ) × ℕ) :=
  edgeEntriesAux 0 tris

/-- The face indices inserted for a given canonical edge, in program
order.  The `std::map<Edge, EdgeInfo>` of `build_topology` keeps the
first of these as `face0` and the second as `face1` (later insertions
only print a non-manifold warning and change nothing). -/
def entriesFor (tris : List Tri) (e : ℕ × ℕ) : List ℕ :=
  ((edgeEntries tris).filter (fun p => p.1 = e)).map Prod.snd

/-- The `(face0, face1)` pair recorded for an edge: first two inserted
faces, `-1` when absent. -/
def facePair (tris : List Tri) (e : ℕ × ℕ) : ℤ × ℤ :=
  match entriesFor tris e with
  | [] => (-1, -1)
  | [t] => ((t : ℤ), -1)
  | t0 :: t1 :: _ => ((t0 : ℤ), (t1 : ℤ))

/-- Lexicographic order on canonical edges — the iteration order of the
`std::map` keyed by `Edge` (see `Edge::operator<`). -/
def edgeLE (e f : ℕ × ℕ) : Prop :=
  e.1 < f.1 ∨ (e.1 = f.1 ∧ e.2 ≤ f.2)

instance : DecidableRel edgeLE := fun e f => by
  unfold edgeLE; infer_instance

/-- The sorted list of distinct canonical edges of a triangle list —
the flattened key sequence of the `std::map` in `build_topology`. -/
def sortedEdges (tris : List Tri) : List (ℕ × ℕ) :=
  ((edgeEntries tris).map Prod.fst).dedup.insertionSort edgeLE

/-- `build_topology` (`topology.cpp`): `NULL` mesh gives a `NULL`
result; otherwise the edge map is built from all triangles and
flattened (in sorted key order) into the parallel `edges` /
`edge_faces` arrays.  Note the code returns a (possibly empty)
`TopologyInfo` for every non-null mesh — there is no emptiness check. -/
def buildTopology : Option Mesh → Option TopologyInfo
  | none => none
  | some m =>
    let es := sortedEdges m.triangles
    some ⟨es, es.map (facePair m.triangles)⟩

/-- `validate_topology` (`topology.cpp`): returns `0` for null inputs
and `1` otherwise.  The Euler characteristic `V - E + F` is only
printed; a non-standard value produces a warning but the function still
returns `1`. -/
def validateTopology : Option Mesh → Option TopologyInfo → ℤ
  | some _, some _ => 1
  | none, _ => 0
  | some _, none => 0

/-- A triangle whose three vertex indices are pairwise distinct. -/
def triDistinct (t : Tri) : Prop :=
  t.1 ≠ t.2.1 ∧ t.1 ≠ t.2.2 ∧ t.2.1 ≠ t.2.2

instance : DecidablePred triDistinct := fun t => by
  unfold triDistinct; infer_instance

lemma canonEdge_lt {a b : ℕ} (h : a ≠ b) :
    (canonEdge a b).1 < (canonEdge a b).2 := by
  unfold canonEdge; split <;> simp <;> omega

lemma mem_triEdges_lt {t : Tri} (ht : triDistinct t) {e : ℕ × ℕ}
    (he : e ∈ triEdges t) : e.1 < e.2 := by
  obtain ⟨h1, h2, h3⟩ := ht
  simp only [triEdges, List.mem_cons, List.mem_singleton, List.not_mem_nil,
    or_false] at he
  rcases he with h | h | h <;> subst h <;> exact canonEdge_lt (by assumption)

lemma mem_edgeEntriesAux {p : (ℕ × ℕ) × ℕ} :
    ∀ (i : ℕ) (l : List Tri), p ∈ edgeEntriesAux i l →
      ∃ t ∈ l, p.1 ∈ triEdges t
  | _, [], h => absurd h (by simp [edgeEntriesAux])
  | i, t :: rest, h => by
    simp only [edgeEntriesAux, List.mem_append, List.mem_map] at h
    rcases h with ⟨e, he, rfl⟩ | h
    · exact ⟨t, List.mem_cons_self t rest, he⟩
    · obtain ⟨t2, ht2, h2⟩ := mem_edgeEntriesAux (i + 1) rest h
      exact ⟨t2, List.mem_cons_of_mem t ht2, h2⟩

lemma mem_sortedEdges {tris : List Tri} {e : ℕ × ℕ} :
    e ∈ sortedEdges tris ↔ e ∈ (edgeEntries tris).map Prod.fst := by
  unfold sortedEdges
  rw [(List.perm_insertionSort edgeLE _).mem_iff, List.mem_dedup]

lemma nodup_sortedEdges (tris : List Tri) : (sortedEdges tris).Nodup := by
  unfold sortedEdges
  exact (List.perm_insertionSort edgeLE _).nodup_iff.mpr (List.nodup_dedup _)

lemma facePair_lists {tris : List Tri} {e : ℕ × ℕ} {t : ℕ}
    (ht : t ∈ entriesFor tris e) (hlen : (entriesFor tris e).length ≤ 2) :
    (facePair tris e).1 = (t : ℤ) ∨ (facePair tris e).2 = (t : ℤ) := by
  unfold facePair
  rcases h : entriesFor tris e with _ | ⟨t0, _ | ⟨t1, rest⟩⟩
  · rw [h] at ht; cases ht
  · rw [h] at ht
    simp only [List.mem_singleton] at ht
    subst ht; left; rfl
  · rw [h] at ht hlen
    have hrest : rest = [] := by
      cases rest with
      | nil => rfl
      | cons x xs => simp at hlen
    subst hrest
    simp only [List.mem_cons, List.not_mem_nil, or_false,
      List.mem_singleton] at ht
    rcases ht with rfl | rfl
    · left; rfl
    · right; rfl

lemma zip_self_map {α β : Type} (l : List α) (f : α → β) :
    l.zip (l.map f) = l.map (fun a => (a, f a)) := by
  induction l with
  | nil => rfl
  | cons a l ih => rw [List.map_cons, List.zip_cons_cons, ih, List.map_cons]

/-- Claim C4 (amended): for every mesh all of whose triangles have
pairwise-distinct vertex indices and whose edges each receive at most
two incident-face insertions, `build_topology` stores every edge with
`v0 < v1`, lists each undirected edge exactly once (the edge array has
no duplicates and contains exactly the canonical edges of the
triangles), and every `(edge, triangle)` incidence is recorded in the
parallel `edge_faces` entry as `face0` or `face1`. -/
theorem C4_edge_invariants (m : Mesh) (topo : TopologyInfo)
    (hbuild : buildTopology (some m) = some topo)
    (hdist : ∀ t ∈ m.triangles, triDistinct t)
    (hman : ∀ e ∈ (edgeEntries m.triangles).map Prod.fst,
      (entriesFor m.triangles e).length ≤ 2) :
    (∀ e ∈ topo.edges, e.1 < e.2) ∧
    topo.edges.Nodup ∧
    (∀ e, e ∈ topo.edges ↔ ∃ p ∈ edgeEntries m.triangles, p.1 = e) ∧
    (∀ p ∈ edgeEntries m.triangles, ∃ pr ∈ topo.edges.zip topo.edge_faces,
      pr.1 = p.1 ∧ (pr.2.1 = (p.2 : ℤ) ∨ pr.2.2 = (p.2 : ℤ))) := by
  have htopo : topo = ⟨sortedEdges m.triangles,
      (sortedEdges m.triangles).map (facePair m.triangles)⟩ := by
    simpa [buildTopology] using hbuild.symm
  subst htopo
  refine ⟨?_, nodup_sortedEdges _, ?_, ?_⟩
  · intro e he
    obtain ⟨p, hp, rfl⟩ := List.mem_map.mp (mem_sortedEdges.mp he)
    obtain ⟨t, ht, hpt⟩ := mem_edgeEntriesAux 0 m.triangles hp
    exact mem_triEdges_lt (hdist t ht) hpt
  · intro e
    rw [mem_sortedEdges, List.mem_map]
  · intro p hp
    have hkey : p.1 ∈ sortedEdges m.triangles :=
      mem_sortedEdges.mpr (List.mem_map.mpr ⟨p, hp, rfl⟩)
    have hmemf : p.2 ∈ entriesFor m.triangles p.1 := by
      unfold entriesFor
      exact List.mem_map.mpr ⟨p, List.mem_filter.mpr ⟨hp, by simp⟩, rfl⟩
    have hlen := hman p.1 (List.mem_map.mpr ⟨p, hp, rfl⟩)
    refine ⟨(p.1, facePair m.triangles p.1), ?_, rfl,
      facePair_lists hmemf hlen⟩
    rw [zip_self_map]
    exact List.mem_map.mpr ⟨p.1, hkey, rfl⟩

/-- The mesh with the single degenerate triangle `(0, 0, 1)` used to
refute the claim that stored edges always satisfy `v0 < v1`. -/
def degMesh : Mesh := ⟨[], [(0, 0, 1)], []⟩

/-- Claim C4 is false as stated: the degenerate triangle `(0,0,1)`
satisfies the manifold hypothesis (each edge has at most two incident
insertions) yet `build_topology` stores the edge `(0,0)`, for which
`v0 < v1` fails. -/
theorem C4_counterexample :
    buildTopology (some degMesh) =
      some ⟨[(0, 0), (0, 1)], [(0, -1), (0, 0)]⟩ ∧
    (∀ e ∈ (edgeEntries degMesh.triangles).map Prod.fst,
      (entriesFor degMesh.triangles e).length ≤ 2) ∧
    ((0, 0) ∈ [(0, 0), (0, 1)] ∧ ¬((0 : ℕ) < 0)) := by
  refine ⟨by decide, by decide, by decide⟩

/-- The two-triangle strip used as a concrete instance of the amended
claim C4. -/
def stripMesh : Mesh := ⟨[], [(0, 1, 2), (1, 2, 3)], []⟩

/-- The topology `build_topology` produces for `stripMesh`. -/
def stripTopo : TopologyInfo :=
  ⟨[(0, 1), (0, 2), (1, 2), (1, 3), (2, 3)],
   [(0, -1), (0, -1), (0, 1), (1, -1), (1, -1)]⟩

theorem C4_witness :
    (∀ t ∈ stripMesh.triangles, triDistinct t) ∧
    (∀ e ∈ (edgeEntries stripMesh.triangles).map Prod.fst,
      (entriesFor stripMesh.triangles e).length ≤ 2) ∧
    (∀ e ∈ stripTopo.edges, e.1 < e.2) :=
  ⟨by decide, by decide,
    (C4_edge_invariants stripMesh stripTopo (by decide) (by decide)
      (by decide)).1⟩

/-- The empty mesh: no vertices, no triangles, no UVs. -/
def emptyMesh : Mesh := ⟨[], [], []⟩

/-- Claim C3 is false as stated: for the empty mesh (zero vertices and
zero triangles) `build_topology` returns a non-null `TopologyInfo`
rather than the null result the claim requires for every invalid
input. -/
theorem C3_counterexample :
    emptyMesh.vertices = [] ∧ emptyMesh.triangles = [] ∧
    buildTopology (some emptyMesh) ≠ none := ⟨rfl, rfl, by decide⟩

/-- Claim C3 (amended): `build_topology` returns null exactly for a
null mesh pointer; every non-null mesh — including an empty mesh or one
with triangle count 0 — yields a non-null `TopologyInfo`, which has
zero edges when there are no triangles. -/
theorem C3_null_behaviour :
    buildTopology none = none ∧
    (∀ m : Mesh, (buildTopology (some m)).isSome = true) ∧
    (∀ m : Mesh, m.triangles = [] → buildTopology (some m) = some ⟨[], []⟩) := by
  refine ⟨rfl, fun m => rfl, fun m h => ?_⟩
  have hs : sortedEdges m.triangles = [] := by rw [h]; rfl
  simp [buildTopology, hs]

theorem C3_witness :
    emptyMesh.triangles = [] ∧
    buildTopology (some emptyMesh) = some ⟨[], []⟩ :=
  ⟨rfl, C3_null_behaviour.2.2 emptyMesh rfl⟩

/-- Claim C10: `validate_topology` returns 1 for every non-null mesh
and topology pair — the Euler characteristic `V - E + F` is only
printed, never acted on — and returns 0 exactly when the mesh or the
topology pointer is null. -/
theorem C10_validateTopology :
    (∀ (m : Mesh) (t : TopologyInfo),
      validateTopology (some m) (some t) = 1) ∧
    (∀ t : Option TopologyInfo, validateTopology none t = 0) ∧
    (∀ m : Mesh, validateTopology (some m) none = 0) :=
  ⟨fun _ _ => rfl, fun _ => rfl, fun _ => rfl⟩

/-! ## Normalization (`normalize_uvs_to_unit_square`, `lscm.cpp`) -/

/-- `FLT_MAX`, the largest finite 32-bit float — the C code initialises
its min/max folds with `FLT_MAX` and `-FLT_MAX`. -/
def FLT_MAX : ℝ := 340282346638528859811704183484516925440

/-- Modelled from the spec: `min_float` lives in `math_utils.cpp`,
which is not part of the four provided sources; following the spec's
use it is the ordinary minimum of two scalars. -/
noncomputable def minFloat (a b : ℝ) : ℝ := min a b

/-- Modelled from the spec: `max_float` of `math_utils.cpp`, the
ordinary maximum of two scalars. -/
noncomputable def maxFloat (a b : ℝ) : ℝ := max a b

/-- The min-fold of `normalize_uvs_to_unit_square`, seeded with
`FLT_MAX` exactly as in the C loop. -/
noncomputable def listMin (l : List ℝ) : ℝ := l.foldl minFloat FLT_MAX

/-- The max-fold, seeded with `-FLT_MAX`. -/
noncomputable def listMax (l : List ℝ) : ℝ := l.foldl maxFloat (-FLT_MAX)

/-- The literal `1e-6f` used by the range guards (idealised as the
exact rational). -/
noncomputable def EPS6 : ℝ := 1 / 1000000

/-- The per-axis range of `normalize_uvs_to_unit_square`: `max - min`,
replaced by `1.0` when below the `1e-6` guard. -/
noncomputable def axisRange (vals : List ℝ) : ℝ :=
  if listMax vals - listMin vals < EPS6 then 1 else listMax vals - listMin vals

/-- The per-axis transform of `normalize_uvs_to_unit_square`:
`(x - min) / range`. -/
noncomputable def normAxis (vals : List ℝ) (x : ℝ) : ℝ :=
  (x - listMin vals) / axisRange vals

/-- `normalize_uvs_to_unit_square` (`lscm.cpp`): compute the bounding
box of the UV list, replace a degenerate axis range (< 1e-6) by 1, and
map each coordinate through `(x - min) / range`.  A null or empty
buffer is returned unchanged. -/
noncomputable def normalizeUVs (uvs : List (ℝ × ℝ)) : List (ℝ × ℝ) :=
  if uvs.length = 0 then uvs
  else
    uvs.map (fun p => (normAxis (uvs.map Prod.fst) p.1,
                       normAxis (uvs.map Prod.snd) p.2))

lemma foldl_min_le_init : ∀ (l : List ℝ) (i : ℝ), l.foldl minFloat i ≤ i
  | [], _ => le_refl _
  | a :: t, i =>
    le_trans (foldl_min_le_init t (minFloat i a)) (min_le_left _ _)

lemma foldl_min_le_of_mem {x : ℝ} :
    ∀ (l : List ℝ) (i : ℝ), x ∈ l → l.foldl minFloat i ≤ x
  | [], _, h => absurd h (List.not_mem_nil x)
  | a :: t, i, h => by
    rcases List.mem_cons.mp h with rfl | h
    · exact le_trans (foldl_min_le_init t (minFloat i x)) (min_le_right _ _)
    · exact foldl_min_le_of_mem t (minFloat i a) h

lemma le_foldl_min {c : ℝ} :
    ∀ (l : List ℝ) (i : ℝ), c ≤ i → (∀ x ∈ l, c ≤ x) → c ≤ l.foldl minFloat i
  | [], _, hi, _ => hi
  | a :: t, i, hi, hl =>
    le_foldl_min t (minFloat i a)
      (le_min hi (hl a (List.mem_cons_self a t)))
      (fun x hx => hl x (List.mem_cons_of_mem a hx))

lemma foldl_min_mem : ∀ (l : List ℝ) (i : ℝ),
    l.foldl minFloat i = i ∨ l.foldl minFloat i ∈ l
  | [], _ => Or.inl rfl
  | a :: t, i => by
    rcases foldl_min_mem t (minFloat i a) with h | h
    · rcases min_choice i a with hc | hc
      · exact Or.inl (h.trans hc)
      · exact Or.inr (List.mem_cons.mpr (Or.inl (h.trans hc)))
    · exact Or.inr (List.mem_cons_of_mem a h)

lemma init_le_foldl_max : ∀ (l : List ℝ) (i : ℝ), i ≤ l.foldl maxFloat i
  | [], _ => le_refl _
  | a :: t, i =>
    le_trans (le_max_left _ _) (init_le_foldl_max t (maxFloat i a))

lemma mem_le_foldl_max {x : ℝ} :
    ∀ (l : List ℝ) (i : ℝ), x ∈ l → x ≤ l.foldl maxFloat i
  | [], _, h => absurd h (List.not_mem_nil x)
  | a :: t, i, h => by
    rcases List.mem_cons.mp h with rfl | h
    · exact le_trans (le_max_right _ _) (init_le_foldl_max t (maxFloat i x))
    · exact mem_le_foldl_max t (maxFloat i a) h

lemma foldl_max_le {c : ℝ} :
    ∀ (l : List ℝ) (i : ℝ), i ≤ c → (∀ x ∈ l, x ≤ c) → l.foldl maxFloat i ≤ c
  | [], _, hi, _ => hi
  | a :: t, i, hi, hl =>
    foldl_max_le t (maxFloat i a)
      (max_le hi (hl a (List.mem_cons_self a t)))
      (fun x hx => hl x (List.mem_cons_of_mem a hx))

lemma foldl_max_mem : ∀ (l : List ℝ) (i : ℝ),
    l.foldl maxFloat i = i ∨ l.foldl maxFloat i ∈ l
  | [], _ => Or.inl rfl
  | a :: t, i => by
    rcases foldl_max_mem t (maxFloat i a) with h | h
    · rcases max_choice i a with hc | hc
      · exact Or.inl (h.trans hc)
      · exact Or.inr (List.mem_cons.mpr (Or.inl (h.trans hc)))
    · exact Or.inr (List.mem_cons_of_mem a h)

lemma listMin_mem {l : List ℝ} (hne : l ≠ [])
    (hb : ∀ x ∈ l, x ≤ FLT_MAX) : listMin l ∈ l := by
  rcases foldl_min_mem l FLT_MAX with h | h
  · obtain ⟨x, hx⟩ := List.exists_mem_of_ne_nil l hne
    have h1 : listMin l ≤ x := foldl_min_le_of_mem l FLT_MAX hx
    have h2 : x ≤ FLT_MAX := hb x hx
    have : x = listMin l := le_antisymm (by rw [listMin, h]; exact h2) h1
    rwa [← this]
  · exact h

lemma listMax_mem {l : List ℝ} (hne : l ≠ [])
    (hb : ∀ x ∈ l, -FLT_MAX ≤ x) : listMax l ∈ l := by
  rcases foldl_max_mem l (-FLT_MAX) with h | h
  · obtain ⟨x, hx⟩ := List.exists_mem_of_ne_nil l hne
    have h1 : x ≤ listMax l := mem_le_foldl_max l (-FLT_MAX) hx
    have h2 : -FLT_MAX ≤ x := hb x hx
    have : x = listMax l := le_antisymm h1 (by rw [listMax, h]; exact h2)
    rwa [← this]
  · exact h

lemma axisRange_pos (vals : List ℝ) : 0 < axisRange vals := by
  unfold axisRange
  split
  · exact one_pos
  · rename_i hr
    push_neg at hr
    have : (0 : ℝ) < EPS6 := by norm_num [EPS6]
    linarith

/-- Bounds for one axis of the normalization map. -/
lemma normAxis_bounds (vals : List ℝ) {x : ℝ} (hx : x ∈ vals) :
    0 ≤ normAxis vals x ∧ normAxis vals x ≤ 1 := by
  have hmin : listMin vals ≤ x := foldl_min_le_of_mem vals FLT_MAX hx
  have hmax : x ≤ listMax vals := mem_le_foldl_max vals (-FLT_MAX) hx
  unfold normAxis axisRange
  by_cases hr : listMax vals - listMin vals < EPS6
  · rw [if_pos hr]
    constructor
    · simpa using hmin
    · have : x - listMin vals < EPS6 := by linarith
      rw [div_one]
      have hE : EPS6 ≤ 1 := by norm_num [EPS6]
      linarith
  · rw [if_neg hr]
    push_neg at hr
    have hpos : 0 < listMax vals - listMin vals := by
      have : (0 : ℝ) < EPS6 := by norm_num [EPS6]
      linarith
    constructor
    · exact div_nonneg (by linarith) (le_of_lt hpos)
    · rw [div_le_one hpos]; linarith

/-- Applying the axis transform to the axis minimum yields exactly 0. -/
lemma normAxis_min (vals : List ℝ) : normAxis vals (listMin vals) = 0 := by
  simp [normAxis]

/-- After one normalization pass of an axis with finite values, the new
minimum is 0 and the new range guard evaluates to 1, so a second pass
is the identity on that axis. -/
lemma normAxis_second (vals : List ℝ) (hne : vals ≠ [])
    (hb : ∀ x ∈ vals, |x| ≤ FLT_MAX) :
    listMin (vals.map (normAxis vals)) = 0 ∧
    axisRange (vals.map (normAxis vals)) = 1 := by
  have hbu : ∀ x ∈ vals, x ≤ FLT_MAX := fun x hx =>
    le_trans (le_abs_self _) (hb x hx)
  have hbl : ∀ x ∈ vals, -FLT_MAX ≤ x := fun x hx =>
    neg_le_of_abs_le (hb x hx)
  have hminmem : listMin vals ∈ vals := listMin_mem hne hbu
  have hmaxmem : listMax vals ∈ vals := listMax_mem hne hbl
  have hzero : (0 : ℝ) ∈ vals.map (normAxis vals) :=
    List.mem_map.mpr ⟨listMin vals, hminmem, normAxis_min vals⟩
  have hnonneg : ∀ y ∈ vals.map (normAxis vals), 0 ≤ y := by
    intro y hy
    obtain ⟨x, hx, rfl⟩ := List.mem_map.mp hy
    exact (normAxis_bounds vals hx).1
  have hmin0 : listMin (vals.map (normAxis vals)) = 0 := by
    refine le_antisymm (foldl_min_le_of_mem _ FLT_MAX hzero) ?_
    exact le_foldl_min _ FLT_MAX (by norm_num [FLT_MAX]) hnonneg
  refine ⟨hmin0, ?_⟩
  unfold axisRange
  rw [hmin0, sub_zero]
  by_cases hr : listMax vals - listMin vals < EPS6
  · -- degenerate original range: the pass was a pure translation
    have hmaxle : listMax (vals.map (normAxis vals)) ≤
        listMax vals - listMin vals := by
      refine foldl_max_le _ (-FLT_MAX) ?_ ?_
      · have h1 : listMin vals ≤ listMax vals :=
          le_trans (foldl_min_le_of_mem vals FLT_MAX hminmem)
            (mem_le_foldl_max vals (-FLT_MAX) hminmem)
        have : (0 : ℝ) ≤ FLT_MAX := by norm_num [FLT_MAX]
        linarith
      · intro y hy
        obtain ⟨x, hx, rfl⟩ := List.mem_map.mp hy
        have hmax : x ≤ listMax vals := mem_le_foldl_max vals (-FLT_MAX) hx
        have : axisRange vals = 1 := by unfold axisRange; rw [if_pos hr]
        simp only [normAxis, this, div_one]
        linarith
    rw [if_pos (lt_of_le_of_lt hmaxle hr)]
  · -- proper range: the maximum image is exactly 1
    push_neg at hr
    have hpos : 0 < listMax vals - listMin vals := by
      have : (0 : ℝ) < EPS6 := by norm_num [EPS6]
      linarith
    have hone : (1 : ℝ) ∈ vals.map (normAxis vals) := by
      refine List.mem_map.mpr ⟨listMax vals, hmaxmem, ?_⟩
      unfold normAxis axisRange
      rw [if_neg (not_lt.mpr hr), div_self (ne_of_gt hpos)]
    have hle1 : ∀ y ∈ vals.map (normAxis vals), y ≤ 1 := by
      intro y hy
      obtain ⟨x, hx, rfl⟩ := List.mem_map.mp hy
      exact (normAxis_bounds vals hx).2
    have hmax1 : listMax (vals.map (normAxis vals)) = 1 := by
      refine le_antisymm ?_ (mem_le_foldl_max _ (-FLT_MAX) hone)
      exact foldl_max_le _ (-FLT_MAX) (by norm_num [FLT_MAX]) hle1
    rw [hmax1, if_neg (by norm_num [EPS6])]

/-- Claim C7: for every non-empty UV buffer of finite entries,
`normalize_uvs_to_unit_square` produces coordinates in [0,1] on both
axes, and the minimum on each axis is exactly 0 (it is attained). -/
theorem C7_normalize_range (uvs : List (ℝ × ℝ)) (hne : uvs ≠ [])
    (hfin : ∀ p ∈ uvs, |p.1| ≤ FLT_MAX ∧ |p.2| ≤ FLT_MAX) :
    (∀ q ∈ normalizeUVs uvs, 0 ≤ q.1 ∧ q.1 ≤ 1 ∧ 0 ≤ q.2 ∧ q.2 ≤ 1) ∧
    (∃ q ∈ normalizeUVs uvs, q.1 = 0) ∧
    (∃ q ∈ normalizeUVs uvs, q.2 = 0) := by
  have hlen : ¬ uvs.length = 0 := by
    simpa [List.length_eq_zero] using hne
  rw [normalizeUVs, if_neg hlen]
  refine ⟨?_, ?_, ?_⟩
  · intro q hq
    obtain ⟨p, hp, rfl⟩ := List.mem_map.mp hq
    have hu := normAxis_bounds (uvs.map Prod.fst)
      (List.mem_map.mpr ⟨p, hp, rfl⟩)
    have hv := normAxis_bounds (uvs.map Prod.snd)
      (List.mem_map.mpr ⟨p, hp, rfl⟩)
    exact ⟨hu.1, hu.2, hv.1, hv.2⟩
  · have hm : listMin (uvs.map Prod.fst) ∈ uvs.map Prod.fst := by
      refine listMin_mem (by simpa using hne) ?_
      intro x hx
      obtain ⟨p, hp, rfl⟩ := List.mem_map.mp hx
      exact le_trans (le_abs_self _) (hfin p hp).1
    obtain ⟨p, hp, hp1⟩ := List.mem_map.mp hm
    refine ⟨_, List.mem_map.mpr ⟨p, hp, rfl⟩, ?_⟩
    show normAxis (uvs.map Prod.fst) p.1 = 0
    rw [hp1]
    exact normAxis_min _
  · have hm : listMin (uvs.map Prod.snd) ∈ uvs.map Prod.snd := by
      refine listMin_mem (by simpa using hne) ?_
      intro x hx
      obtain ⟨p, hp, rfl⟩ := List.mem_map.mp hx
      exact le_trans (le_abs_self _) (hfin p hp).2
    obtain ⟨p, hp, hp2⟩ := List.mem_map.mp hm
    refine ⟨_, List.mem_map.mpr ⟨p, hp, rfl⟩, ?_⟩
    show normAxis (uvs.map Prod.snd) p.2 = 0
    rw [hp2]
    exact normAxis_min _

theorem C7_witness :
    ([((2 : ℝ), 3), (4, 7)] ≠ ([] : List (ℝ × ℝ))) ∧
    (∀ q ∈ normalizeUVs [((2 : ℝ), 3), (4, 7)],
      0 ≤ q.1 ∧ q.1 ≤ 1 ∧ 0 ≤ q.2 ∧ q.2 ≤ 1) :=
  ⟨by simp,
    (C7_normalize_range [((2 : ℝ), 3), (4, 7)] (by simp)
      (by norm_num [FLT_MAX])).1⟩

/-- Claim C8: `normalize_uvs_to_unit_square` is idempotent — for every
non-empty buffer of finite UVs, applying it twice gives exactly the
result of applying it once.  (After the first pass each axis has
minimum 0 and effective range 1, so the second pass divides by 1 and
subtracts 0.) -/
theorem C8_normalize_idempotent (uvs : List (ℝ × ℝ)) (hne : uvs ≠ [])
    (hfin : ∀ p ∈ uvs, |p.1| ≤ FLT_MAX ∧ |p.2| ≤ FLT_MAX) :
    normalizeUVs (normalizeUVs uvs) = normalizeUVs uvs := by
  have hlen : ¬ uvs.length = 0 := by
    simpa [List.length_eq_zero] using hne
  have hinner : normalizeUVs uvs =
      uvs.map (fun p => (normAxis (uvs.map Prod.fst) p.1,
                         normAxis (uvs.map Prod.snd) p.2)) := by
    rw [normalizeUVs, if_neg hlen]
  have hlen2 : ¬ (normalizeUVs uvs).length = 0 := by
    rw [hinner, List.length_map]; exact hlen
  have hfst : (normalizeUVs uvs).map Prod.fst =
      (uvs.map Prod.fst).map (normAxis (uvs.map Prod.fst)) := by
    rw [hinner]; simp [List.map_map]
  have hsnd : (normalizeUVs uvs).map Prod.snd =
      (uvs.map Prod.snd).map (normAxis (uvs.map Prod.snd)) := by
    rw [hinner]; simp [List.map_map]
  have hU := normAxis_second (uvs.map Prod.fst) (by simpa using hne)
    (by intro x hx; obtain ⟨p, hp, rfl⟩ := List.mem_map.mp hx
        exact (hfin p hp).1)
  have hV := normAxis_second (uvs.map Prod.snd) (by simpa using hne)
    (by intro x hx; obtain ⟨p, hp, rfl⟩ := List.mem_map.mp hx
        exact (hfin p hp).2)
  conv_lhs => rw [normalizeUVs]
  rw [if_neg hlen2]
  have hid : ∀ q ∈ normalizeUVs uvs,
      (normAxis ((normalizeUVs uvs).map Prod.fst) q.1,
       normAxis ((normalizeUVs uvs).map Prod.snd) q.2) = q := by
    intro q _
    unfold normAxis
    rw [hfst, hsnd, hU.1, hU.2, hV.1, hV.2]
    simp
  calc (normalizeUVs uvs).map
        (fun q => (normAxis ((normalizeUVs uvs).map Prod.fst) q.1,
                   normAxis ((normalizeUVs uvs).map Prod.snd) q.2))
      = (normalizeUVs uvs).map id := List.map_congr_left hid
    _ = normalizeUVs uvs := List.map_id _

theorem C8_witness :
    ([((2 : ℝ), 3), (4, 7)] ≠ ([] : List (ℝ × ℝ))) ∧
    normalizeUVs (normalizeUVs [((2 : ℝ), 3), (4, 7)]) =
      normalizeUVs [((2 : ℝ), 3), (4, 7)] :=
  ⟨by simp,
    C8_normalize_idempotent [((2 : ℝ), 3), (4, 7)] (by simp)
      (by norm_num [FLT_MAX])⟩

/-! ## Seam detection (`seam_detection.cpp`) -/

/-- Vertex position read: the C code indexes the flat vertex array
directly; out-of-range reads are modelled as the origin. -/
def pos3 (m : Mesh) (v : ℕ) : ℝ × ℝ × ℝ := m.vertices.getD v (0, 0, 0)

/-- Component-wise difference of 3D points. -/
noncomputable def sub3 (a b : ℝ × ℝ × ℝ) : ℝ × ℝ × ℝ :=
  (a.1 - b.1, a.2.1 - b.2.1, a.2.2 - b.2.2)

/-- Cross product, exactly the component formulas of
`compute_face_normal`. -/
noncomputable def cross3 (a b : ℝ × ℝ × ℝ) : ℝ × ℝ × ℝ :=
  (a.2.1 * b.2.2 - a.2.2 * b.2.1,
   a.2.2 * b.1 - a.1 * b.2.2,
   a.1 * b.2.1 - a.2.1 * b.1)

/-- Dot product of 3D vectors. -/
noncomputable def dot3 (a b : ℝ × ℝ × ℝ) : ℝ :=
  a.1 * b.1 + a.2.1 * b.2.1 + a.2.2 * b.2.2

/-- Euclidean length, `sqrtf(nx*nx + ny*ny + nz*nz)`. -/
noncomputable def norm3 (a : ℝ × ℝ × ℝ) : ℝ := Real.sqrt (dot3 a a)

/-- `compute_face_normal` (`seam_detection.cpp`): unit normal of a
face via the cross product of its two edge vectors; the zero vector
when the cross product has length 0. -/
noncomputable def faceNormal (m : Mesh) (f : ℕ) : ℝ × ℝ × ℝ :=
  let t := m.triangles.getD f (0, 0, 0)
  let p0 := pos3 m t.1
  let p1 := pos3 m t.2.1
  let p2 := pos3 m t.2.2
  let e1 := sub3 p1 p0
  let e2 := sub3 p2 p0
  let n := cross3 e1 e2
  let len := norm3 n
  if 0 < len then (n.1 / len, n.2.1 / len, n.2.2 / len) else (0, 0, 0)

/-- The `(f0, f1)` faces recorded for edge index `ei`. -/
def edgeFacePair (t : TopologyInfo) (ei : ℕ) : ℤ × ℤ :=
  t.edge_faces.getD ei (-1, -1)

/-- The clamped dot product `d = clamp(n0 · n1, -1, 1)` of the two
face normals of a (manifold) edge, as computed in step 3 of
`detect_seams`. -/
noncomputable def dihedralDot (m : Mesh) (t : TopologyInfo) (ei : ℕ) : ℝ :=
  let fp := edgeFacePair t ei
  let n0 := faceNormal m fp.1.toNat
  let n1 := faceNormal m fp.2.toNat
  max (-1) (min 1 (dot3 n0 n1))

/-- The dihedral angle in degrees, `acos(d) * 180 / π`. -/
noncomputable def dihedralAngle (m : Mesh) (t : TopologyInfo) (ei : ℕ) : ℝ :=
  Real.arccos (dihedralDot m t ei) * 180 / Real.pi

open Classical in
/-- Step 3 of `detect_seams`: the dihedral-angle seam candidates.  An
edge qualifies when both incident faces are valid, the angle is not
below 5°, the clamped dot is not below −0.99, and the angle exceeds
the threshold. -/
noncomputable def dihedralSeams (m : Mesh) (t : TopologyInfo) (θ : ℝ) :
    Finset ℕ :=
  (Finset.range t.edges.length).filter (fun ei =>
    0 ≤ (edgeFacePair t ei).1 ∧ 0 ≤ (edgeFacePair t ei).2 ∧
    ¬ dihedralAngle m t ei < 5 ∧ ¬ dihedralDot m t ei < -0.99 ∧
    θ < dihedralAngle m t ei)

/-- Whether a triangle lists `v` among its three vertices
(`v0 == vertex_idx || v1 == vertex_idx || v2 == vertex_idx`). -/
def triHasVertex (t : Tri) (v : ℕ) : Prop :=
  t.1 = v ∨ t.2.1 = v ∨ t.2.2 = v

instance : ∀ t v, Decidable (triHasVertex t v) := fun t v => by
  unfold triHasVertex; infer_instance

/-- Modelled from the spec: the angle between two edge vectors, as an
arccos of the clamped normalised dot product; used by the interior
angle computation below. -/
noncomputable def angleBetween (u w : ℝ × ℝ × ℝ) : ℝ :=
  Real.arccos (max (-1) (min 1 (dot3 u w / (norm3 u * norm3 w))))

/-- Modelled from the spec: `compute_vertex_angle_in_triangle` lives in
`math_utils.cpp`, which is not among the four provided sources.  Per
the spec's definition of angular defect it returns the interior angle
of triangle `ti` at vertex `v` — the angle between the two triangle
edges emanating from `v` — and `0` when `v` is not a vertex of the
triangle. -/
noncomputable def vertexAngleInTriangle (m : Mesh) (ti : ℕ) (v : ℕ) : ℝ :=
  let t := m.triangles.getD ti (0, 0, 0)
  let pa := pos3 m t.1
  let pb := pos3 m t.2.1
  let pc := pos3 m t.2.2
  if v = t.1 then angleBetween (sub3 pb pa) (sub3 pc pa)
  else if v = t.2.1 then angleBetween (sub3 pa pb) (sub3 pc pb)
  else if v = t.2.2 then angleBetween (sub3 pa pc) (sub3 pb pc)
  else 0

/-- `compute_angular_defect` (`seam_detection.cpp`): `2π` minus the sum
of the interior angles at `v` over all triangles listing `v`. -/
noncomputable def angularDefect (m : Mesh) (v : ℕ) : ℝ :=
  2 * Real.pi -
    ∑ ti ∈ (Finset.range m.triangles.length).filter
        (fun ti => triHasVertex (m.triangles.getD ti (0, 0, 0)) v),
      vertexAngleInTriangle m ti v

/-- `get_vertex_edges` (`seam_detection.cpp`): all edge indices whose
edge lists `v` as an endpoint — including boundary edges, since the
faces are never consulted. -/
def vertexEdges (t : TopologyInfo) (v : ℕ) : List ℕ :=
  (List.range t.edges.length).filter (fun ei =>
    (t.edges.getD ei (0, 0)).1 = v ∨ (t.edges.getD ei (0, 0)).2 = v)

open Classical in
/-- Step 4 of `detect_seams`: for every vertex whose angular defect
exceeds `θ·π/180`, every incident edge becomes a seam candidate. -/
noncomputable def defectSeams (m : Mesh) (t : TopologyInfo) (θ : ℝ) :
    Finset ℕ :=
  ((Finset.range m.vertices.length).filter
    (fun v => θ * Real.pi / 180 < angularDefect m v)).biUnion
    (fun v => (vertexEdges t v).toFinset)

/-- `detect_seams` (`seam_detection.cpp`): the returned seam set is the
union of the dihedral-angle candidates and the angular-defect
candidates.  (The BFS dual spanning tree computed in steps 1–2 is never
read afterwards and does not influence the output, so it is not
modelled; the sorted output array is modelled as this finite set.) -/
noncomputable def detectSeams (m : Mesh) (t : TopologyInfo) (θ : ℝ) :
    Finset ℕ :=
  dihedralSeams m t θ ∪ defectSeams m t θ

lemma vertexAngle_le_pi (m : Mesh) (ti v : ℕ) :
    vertexAngleInTriangle m ti v ≤ Real.pi := by
  unfold vertexAngleInTriangle angleBetween
  dsimp only
  split
  · exact Real.arccos_le_pi _
  · split
    · exact Real.arccos_le_pi _
    · split
      · exact Real.arccos_le_pi _
      · exact le_of_lt Real.pi_pos

/-- The right triangle in the plane `z = 0` used to refute claim C2. -/
def triMesh : Mesh :=
  ⟨[(0, 0, 0), (1, 0, 0), (0, 1, 0)], [(0, 1, 2)], []⟩

/-- The topology `build_topology` produces for `triMesh`: three edges,
all boundary. -/
def triTopo : TopologyInfo :=
  ⟨[(0, 1), (0, 2), (1, 2)], [(0, -1), (0, -1), (0, -1)]⟩

/-- Claim C2 is false as stated: on the single planar triangle with
threshold 0°, the angular-defect augmentation puts the boundary edge 0
(whose `edge_faces` second entry is −1) into the `detect_seams`
output. -/
theorem C2_counterexample :
    buildTopology (some triMesh) = some triTopo ∧
    (0 : ℕ) ∈ detectSeams triMesh triTopo 0 ∧
    (edgeFacePair triTopo 0).2 = -1 := by
  refine ⟨by decide, ?_, by decide⟩
  have hfil : (Finset.range triMesh.triangles.length).filter
      (fun ti => triHasVertex (triMesh.triangles.getD ti (0, 0, 0)) 0) =
      {0} := by decide
  have hdef : (0 : ℝ) * Real.pi / 180 < angularDefect triMesh 0 := by
    unfold angularDefect
    rw [hfil, Finset.sum_singleton]
    have h1 := vertexAngle_le_pi triMesh 0 0
    have h2 := Real.pi_pos
    linarith
  have hv : (0 : ℕ) ∈ (Finset.range triMesh.vertices.length).filter
      (fun v => (0 : ℝ) * Real.pi / 180 < angularDefect triMesh v) :=
    Finset.mem_filter.mpr ⟨Finset.mem_range.mpr (by decide), hdef⟩
  have he : (0 : ℕ) ∈ vertexEdges triTopo 0 := by decide
  exact Finset.mem_union_right _
    (Finset.mem_biUnion.mpr ⟨0, hv, List.mem_toFinset.mpr he⟩)

/-- Claim C2 (amended): no edge contributed by the dihedral-angle rule
is a boundary edge — both `edge_faces` entries of a dihedral seam
candidate are valid — but the angular-defect augmentation may
contribute boundary edges (see the counterexample). -/
theorem C2_dihedral_no_boundary (m : Mesh) (t : TopologyInfo) (θ : ℝ)
    (ei : ℕ) (h : ei ∈ dihedralSeams m t θ) :
    0 ≤ (edgeFacePair t ei).1 ∧ 0 ≤ (edgeFacePair t ei).2 := by
  have hp := (Finset.mem_filter.mp h).2
  exact ⟨hp.1, hp.2.1⟩

/-- Two triangles meeting at a right dihedral angle along edge (0,1). -/
def orthoMesh : Mesh :=
  ⟨[(0, 0, 0), (1, 0, 0), (0, 1, 0), (0, 0, 1)],
   [(0, 1, 2), (0, 3, 1)], []⟩

/-- The topology `build_topology` produces for `orthoMesh`. -/
def orthoTopo : TopologyInfo :=
  ⟨[(0, 1), (0, 2), (0, 3), (1, 2), (1, 3)],
   [(0, 1), (0, -1), (1, -1), (0, -1), (1, -1)]⟩

lemma orthoTopo_eq : buildTopology (some orthoMesh) = some orthoTopo := by
  decide

lemma orthoDot : dihedralDot orthoMesh orthoTopo 0 = 0 := by
  have h0 : faceNormal orthoMesh 0 = (0, 0, 1) := by
    unfold faceNormal pos3 sub3 cross3 norm3 dot3
    norm_num [orthoMesh, Real.sqrt_one]
  have h1 : faceNormal orthoMesh 1 = (0, 1, 0) := by
    unfold faceNormal pos3 sub3 cross3 norm3 dot3
    norm_num [orthoMesh, Real.sqrt_one]
  unfold dihedralDot
  rw [show (edgeFacePair orthoTopo 0) = (0, 1) from by decide]
  norm_num [h0, h1, dot3]

lemma orthoAngle : dihedralAngle orthoMesh orthoTopo 0 = 90 := by
  unfold dihedralAngle
  rw [orthoDot, Real.arccos_zero]
  field_simp
  ring

/-- Claim C5: a manifold edge is put into the `detect_seams` output
whenever its dihedral angle `α = acos(d)·180/π` satisfies `α ≥ 5°`,
`d ≥ −0.99` and `α > θ`; and conversely the dihedral-angle rule never
admits an edge with `α < 5°` or `d < −0.99`. -/
theorem C5_dihedral_rule (m : Mesh) (t : TopologyInfo) (θ : ℝ) (ei : ℕ) :
    ((ei < t.edges.length ∧
        0 ≤ (edgeFacePair t ei).1 ∧ 0 ≤ (edgeFacePair t ei).2 ∧
        ¬ dihedralAngle m t ei < 5 ∧ ¬ dihedralDot m t ei < -0.99 ∧
        θ < dihedralAngle m t ei) → ei ∈ detectSeams m t θ) ∧
    (ei ∈ dihedralSeams m t θ →
      ¬ dihedralAngle m t ei < 5 ∧ ¬ dihedralDot m t ei < -0.99) := by
  constructor
  · rintro ⟨h1, h2, h3, h4, h5, h6⟩
    exact Finset.mem_union_left _
      (Finset.mem_filter.mpr ⟨Finset.mem_range.mpr h1, h2, h3, h4, h5, h6⟩)
  · intro h
    have hp := (Finset.mem_filter.mp h).2
    exact ⟨hp.2.2.1, hp.2.2.2.1⟩

theorem C5_witness :
    dihedralAngle orthoMesh orthoTopo 0 = 90 ∧
    (0 : ℕ) ∈ detectSeams orthoMesh orthoTopo 60 :=
  ⟨orthoAngle,
    (C5_dihedral_rule orthoMesh orthoTopo 60 0).1
      ⟨by decide, by decide, by decide,
       by rw [orthoAngle]; norm_num,
       by rw [orthoDot]; norm_num,
       by rw [orthoAngle]; norm_num⟩⟩

theorem C2_witness :
    (0 : ℕ) ∈ dihedralSeams orthoMesh orthoTopo 60 ∧
    0 ≤ (edgeFacePair orthoTopo 0).1 ∧ 0 ≤ (edgeFacePair orthoTopo 0).2 := by
  have hmem : (0 : ℕ) ∈ dihedralSeams orthoMesh orthoTopo 60 :=
    Finset.mem_filter.mpr ⟨Finset.mem_range.mpr (by decide),
      by decide, by decide,
      by rw [orthoAngle]; norm_num,
      by rw [orthoDot]; norm_num,
      by rw [orthoAngle]; norm_num⟩
  exact ⟨hmem, C2_dihedral_no_boundary orthoMesh orthoTopo 60 0 hmem⟩

/-! ## Packing (`packing.cpp`) -/

/-- `UnwrapResult` (`unwrap.h`): the per-face island assignment and the
island count, as consumed by `pack_uv_islands`. -/
structure UnwrapResult where
  face_island_ids : Option (List ℤ)
  num_islands : ℤ

/-- The `Island` record of `packing.cpp`. -/
structure Island where
  id : ℤ
  min_u : ℝ
  max_u : ℝ
  min_v : ℝ
  max_v : ℝ
  width : ℝ
  height : ℝ
  target_x : ℝ
  target_y : ℝ
  vertex_indices : List ℕ

/-- The island id read for face `f`: `0` when the id array is null,
otherwise the array entry (out-of-range reads modelled as 0). -/
def faceIslandId (r : UnwrapResult) (f : ℕ) : ℤ :=
  match r.face_island_ids with
  | some l => l.getD f 0
  | none => 0

/-- The sorted set of vertex indices collected for island `iid`
(`island_vertex_sets[iid]`, a `std::set<int>`): all vertices of faces
whose island id is `iid` and lies in `[0, num_islands)`. -/
def islandVertexList (m : Mesh) (r : UnwrapResult) (iid : ℤ) : List ℕ :=
  (((List.range m.triangles.length).filter (fun f =>
      0 ≤ faceIslandId r f ∧ faceIslandId r f < r.num_islands ∧
      faceIslandId r f = iid)).flatMap
    (fun f =>
      let t := m.triangles.getD f (0, 0, 0)
      [t.1, t.2.1, t.2.2])).dedup.insertionSort (· ≤ ·)

/-- The bounding-box part of building one `Island` record from a given
in-range vertex list: UV bounding box (zeros for an empty island) and
width/height clamped below by `1e-6`. -/
noncomputable def mkIslandOf (uvs : List (ℝ × ℝ)) (iid : ℤ)
    (verts : List ℕ) : Island :=
  let us := verts.map (fun v => (uvs.getD v (0, 0)).1)
  let vs := verts.map (fun v => (uvs.getD v (0, 0)).2)
  let minU := if verts = [] then 0 else listMin us
  let maxU := if verts = [] then 0 else listMax us
  let minV := if verts = [] then 0 else listMin vs
  let maxV := if verts = [] then 0 else listMax vs
  { id := iid, min_u := minU, max_u := maxU, min_v := minV, max_v := maxV,
    width := if maxU - minU < EPS6 then EPS6 else maxU - minU,
    height := if maxV - minV < EPS6 then EPS6 else maxV - minV,
    target_x := 0, target_y := 0,
    vertex_indices := verts }

/-- Building one `Island` record: the vertices that pass the
`0 <= vid < V` guard, then the bounding box. -/
noncomputable def mkIsland (m : Mesh) (r : UnwrapResult) (iid : ℤ) : Island :=
  mkIslandOf m.uvs iid
    ((islandVertexList m r iid).filter (fun v => v < m.uvs.length))

/-- The `std::sort` comparator: height descending, ties by width
descending; modelled as a stable sort by the corresponding total
preorder (the C comparator leaves the order of fully tied islands
unspecified). -/
def islandLE (A B : Island) : Prop :=
  B.height < A.height ∨ (B.height = A.height ∧ B.width ≤ A.width)

noncomputable instance : DecidableRel islandLE :=
  fun _ _ => Classical.propDecidable _

/-- The mutable state of the shelf-packing loop. -/
structure ShelfState where
  curX : ℝ
  curY : ℝ
  shelfH : ℝ
  placed : List Island

open Classical in
/-- One iteration of the shelf loop of `pack_uv_islands`: wrap to a new
shelf when the footprint overflows `1 - margin` and the cursor has left
the margin, then record the island's target position and advance.  (The
`packed_max_x` / `packed_max_y` extents the C code also maintains are
never read afterwards and are not modelled.) -/
noncomputable def shelfStep (margin : ℝ) (s : ShelfState) (I : Island) :
    ShelfState :=
  let fw := I.width + margin
  let fh := I.height + margin
  let s1 := if 1 - margin < s.curX + fw ∧ margin < s.curX
    then ShelfState.mk margin (s.curY + s.shelfH + margin) 0 s.placed
    else s
  ShelfState.mk (s1.curX + fw) s1.curY (max s1.shelfH fh)
    (s1.placed ++ [{ I with target_x := s1.curX, target_y := s1.curY }])

/-- The full shelf pass: fold the islands (tallest first) through
`shelfStep`, starting at cursor `(margin, margin)`. -/
noncomputable def shelfPack (margin : ℝ) (l : List Island) : List Island :=
  ((l.insertionSort islandLE).foldl (shelfStep margin)
    ⟨margin, margin, 0, []⟩).placed

/-- Step 4 of `pack_uv_islands`: rewrite each island vertex's UV as
`(target + (uv - island_min))`, reading the buffer's current value. -/
noncomputable def applyIsland (uvs : List (ℝ × ℝ)) (I : Island) :
    List (ℝ × ℝ) :=
  I.vertex_indices.foldl (fun acc vid =>
    let q := acc.getD vid (0, 0)
    acc.set vid (I.target_x + (q.1 - I.min_u), I.target_y + (q.2 - I.min_v)))
    uvs

open Classical in
/-- Step 5 of `pack_uv_islands`: global bounding box of the rewritten
UVs, bail out when nothing was scanned (`pack_min_u == FLT_MAX`),
degenerate ranges replaced by 1, then uniform rescale by
`1 / max(packed_w, packed_h)` and translation of the minimum to 0. -/
noncomputable def rescaleUVs (uvs : List (ℝ × ℝ)) : List (ℝ × ℝ) :=
  let gminU := listMin (uvs.map Prod.fst)
  let gmaxU := listMax (uvs.map Prod.fst)
  let gminV := listMin (uvs.map Prod.snd)
  let gmaxV := listMax (uvs.map Prod.snd)
  if gminU = FLT_MAX then uvs
  else
    let pw := if gmaxU - gminU < EPS6 then 1 else gmaxU - gminU
    let ph := if gmaxV - gminV < EPS6 then 1 else gmaxV - gminV
    let scale := 1 / max pw ph
    uvs.map (fun p => ((p.1 - gminU) * scale, (p.2 - gminV) * scale))

/-- `pack_uv_islands` (`packing.cpp`), returning the mesh's UV buffer
after the call: a single island (or fewer) is left untouched; otherwise
the islands are built, sorted, shelf-packed, moved, and globally
rescaled into the unit square. -/
noncomputable def packUVIslands (m : Mesh) (r : UnwrapResult) (margin : ℝ) :
    List (ℝ × ℝ) :=
  if r.num_islands ≤ 1 then m.uvs
  else
    let islands := (List.range r.num_islands.toNat).map
      (fun i : ℕ => mkIsland m r (i : ℤ))
    let placed := shelfPack margin islands
    let moved := placed.foldl applyIsland m.uvs
    rescaleUVs moved

lemma getD_mem {α : Type} {l : List α} {n : ℕ} {d : α} (h : n < l.length) :
    l.getD n d ∈ l := by
  rw [List.getD_eq_getElem?_getD, List.getElem?_eq_getElem h]
  exact List.getElem_mem h

lemma getD_mem_or {α : Type} (l : List α) (n : ℕ) (d : α) :
    l.getD n d ∈ l ∨ l.getD n d = d := by
  by_cases h : n < l.length
  · exact Or.inl (getD_mem h)
  · exact Or.inr (List.getD_eq_default l d (le_of_not_lt h))

/-- All coordinates of a UV list bounded above by `D`. -/
def UVBound (D : ℝ) (uvs : List (ℝ × ℝ)) : Prop :=
  ∀ p ∈ uvs, p.1 ≤ D ∧ p.2 ≤ D

lemma uvBound_mono {D E : ℝ} {uvs : List (ℝ × ℝ)} (h : D ≤ E)
    (hb : UVBound D uvs) : UVBound E uvs :=
  fun p hp => ⟨le_trans (hb p hp).1 h, le_trans (hb p hp).2 h⟩

lemma uvBound_getD {D : ℝ} {uvs : List (ℝ × ℝ)} (hD : 0 ≤ D)
    (h : UVBound D uvs) (vid : ℕ) :
    (uvs.getD vid (0, 0)).1 ≤ D ∧ (uvs.getD vid (0, 0)).2 ≤ D := by
  rcases getD_mem_or uvs vid (0, 0) with hm | he
  · exact h _ hm
  · rw [he]; exact ⟨hD, hD⟩

lemma uvBound_set {D : ℝ} {uvs : List (ℝ × ℝ)} {n : ℕ} {a : ℝ × ℝ}
    (h : UVBound D uvs) (ha : a.1 ≤ D ∧ a.2 ≤ D) :
    UVBound D (uvs.set n a) := by
  intro p hp
  rcases List.mem_or_eq_of_mem_set hp with hm | rfl
  · exact h p hm
  · exact ha

lemma foldl_move_bound (tx ty mu mv T : ℝ) (hT : 0 ≤ T)
    (htx : tx ≤ T) (hty : ty ≤ T) (hmu : 0 ≤ mu) (hmv : 0 ≤ mv) :
    ∀ (vids : List ℕ) (uvs : List (ℝ × ℝ)) (D : ℝ), 0 ≤ D →
      UVBound D uvs →
      UVBound (D + vids.length * T)
        (vids.foldl (fun acc vid =>
          let q := acc.getD vid (0, 0)
          acc.set vid (tx + (q.1 - mu), ty + (q.2 - mv))) uvs)
  | [], uvs, D, _, h => by simpa using h
  | vid :: rest, uvs, D, hD, h => by
    have hq := uvBound_getD hD h vid
    have hnew : UVBound (D + T)
        (uvs.set vid (tx + ((uvs.getD vid (0, 0)).1 - mu),
                      ty + ((uvs.getD vid (0, 0)).2 - mv))) := by
      refine uvBound_set (uvBound_mono (by linarith) h) ?_
      constructor
      · have := hq.1; simp only; linarith
      · have := hq.2; simp only; linarith
    have hrec := foldl_move_bound tx ty mu mv T hT htx hty hmu hmv rest
      _ (D + T) (by linarith) hnew
    have harith : D + T + (rest.length : ℝ) * T =
        D + ((vid :: rest).length : ℝ) * T := by
      push_cast [List.length_cons]; ring
    rw [harith] at hrec
    exact hrec

lemma applyIsland_bound {I : Island} {uvs : List (ℝ × ℝ)} {T D : ℝ}
    (hT : 0 ≤ T) (hD : 0 ≤ D)
    (htx : I.target_x ≤ T) (hty : I.target_y ≤ T)
    (hmu : 0 ≤ I.min_u) (hmv : 0 ≤ I.min_v)
    (h : UVBound D uvs) :
    UVBound (D + I.vertex_indices.length * T) (applyIsland uvs I) :=
  foldl_move_bound I.target_x I.target_y I.min_u I.min_v T hT htx hty
    hmu hmv I.vertex_indices uvs D hD h

/-- The island facts the containment proof tracks: width/height in
(0, 1], non-negative bounding-box minima, and at most `K` vertices. -/
def IslandOK (K : ℝ) (I : Island) : Prop :=
  0 ≤ I.width ∧ I.width ≤ 1 ∧ 0 ≤ I.height ∧ I.height ≤ 1 ∧
  0 ≤ I.min_u ∧ 0 ≤ I.min_v ∧ (I.vertex_indices.length : ℝ) ≤ K

lemma islandsFold_bound (T K : ℝ) (hT : 0 ≤ T) (hK : 0 ≤ K) :
    ∀ (L : List Island) (uvs : List (ℝ × ℝ)) (D : ℝ), 0 ≤ D →
      (∀ I ∈ L, I.target_x ≤ T ∧ I.target_y ≤ T ∧ IslandOK K I) →
      UVBound D uvs →
      UVBound (D + L.length * (K * T)) (L.foldl applyIsland uvs)
  | [], uvs, D, _, _, h => by simpa using h
  | I :: rest, uvs, D, hD, hL, h => by
    obtain ⟨htx, hty, hOK⟩ := hL I (List.mem_cons_self I rest)
    have h1 : UVBound (D + I.vertex_indices.length * T)
        (applyIsland uvs I) :=
      applyIsland_bound hT hD htx hty hOK.2.2.2.2.1 hOK.2.2.2.2.2.1 h
    have h2 : UVBound (D + K * T) (applyIsland uvs I) := by
      refine uvBound_mono ?_ h1
      have := hOK.2.2.2.2.2.2
      nlinarith
    have hrec := islandsFold_bound T K hT hK rest (applyIsland uvs I)
      (D + K * T) (by positivity) (fun J hJ => hL J (List.mem_cons_of_mem I hJ))
      h2
    have harith : D + K * T + (rest.length : ℝ) * (K * T) =
        D + ((I :: rest).length : ℝ) * (K * T) := by
      push_cast [List.length_cons]; ring
    rw [harith] at hrec
    exact hrec

lemma applyIsland_length (uvs : List (ℝ × ℝ)) (I : Island) :
    (applyIsland uvs I).length = uvs.length := by
  unfold applyIsland
  generalize I.vertex_indices = vids
  induction vids generalizing uvs with
  | nil => rfl
  | cons vid rest ih =>
    rw [List.foldl_cons, ih]
    exact List.length_set _ _ _

lemma islandsFold_length :
    ∀ (L : List Island) (uvs : List (ℝ × ℝ)),
      (L.foldl applyIsland uvs).length = uvs.length
  | [], _ => rfl
  | I :: rest, uvs => by
    rw [List.foldl_cons, islandsFold_length rest, applyIsland_length]

lemma list_min_le_of_bound {l : List (ℝ × ℝ)} {B : ℝ} (hne : l ≠ [])
    (hb : UVBound B l) : listMin (l.map Prod.fst) ≤ B := by
  obtain ⟨x, hx⟩ := List.exists_mem_of_ne_nil l hne
  exact le_trans
    (foldl_min_le_of_mem _ FLT_MAX (List.mem_map.mpr ⟨x, hx, rfl⟩))
    (hb x hx).1

/-- Containment of the final global rescale: any UV list whose
coordinates stay below `FLT_MAX` is mapped into `[0,1]²`. -/
lemma rescaleUVs_bounds {uvs : List (ℝ × ℝ)} {B : ℝ}
    (hB : B < FLT_MAX) (hub : UVBound B uvs) :
    ∀ p ∈ rescaleUVs uvs, 0 ≤ p.1 ∧ p.1 ≤ 1 ∧ 0 ≤ p.2 ∧ p.2 ≤ 1 := by
  rcases eq_or_ne uvs [] with rfl | hne
  · intro p hp
    unfold rescaleUVs at hp
    simp at hp
  · have hbail : listMin (uvs.map Prod.fst) ≠ FLT_MAX :=
      ne_of_lt (lt_of_le_of_lt (list_min_le_of_bound hne hub) hB)
    unfold rescaleUVs
    dsimp only
    rw [if_neg hbail]
    intro p hp
    simp only [List.mem_map] at hp
    obtain ⟨q, hq, rfl⟩ := hp
    dsimp only
    have hq1l : listMin (uvs.map Prod.fst) ≤ q.1 :=
      foldl_min_le_of_mem _ FLT_MAX (List.mem_map.mpr ⟨q, hq, rfl⟩)
    have hq1u : q.1 ≤ listMax (uvs.map Prod.fst) :=
      mem_le_foldl_max _ (-FLT_MAX) (List.mem_map.mpr ⟨q, hq, rfl⟩)
    have hq2l : listMin (uvs.map Prod.snd) ≤ q.2 :=
      foldl_min_le_of_mem _ FLT_MAX (List.mem_map.mpr ⟨q, hq, rfl⟩)
    have hq2u : q.2 ≤ listMax (uvs.map Prod.snd) :=
      mem_le_foldl_max _ (-FLT_MAX) (List.mem_map.mpr ⟨q, hq, rfl⟩)
    set ru := listMax (uvs.map Prod.fst) - listMin (uvs.map Prod.fst) with hru
    set rv := listMax (uvs.map Prod.snd) - listMin (uvs.map Prod.snd) with hrv
    have hEps : (0 : ℝ) < EPS6 := by norm_num [EPS6]
    have hEps1 : EPS6 ≤ 1 := by norm_num [EPS6]
    have hpw : 0 < (if ru < EPS6 then 1 else ru) := by
      split
      · exact one_pos
      · rename_i hcase; push_neg at hcase; linarith
    have hph : 0 < (if rv < EPS6 then 1 else rv) := by
      split
      · exact one_pos
      · rename_i hcase; push_neg at hcase; linarith
    have hmaxpos : 0 < max (if ru < EPS6 then 1 else ru)
        (if rv < EPS6 then 1 else rv) := lt_max_of_lt_left hpw
    have hscale : 0 < 1 / max (if ru < EPS6 then 1 else ru)
        (if rv < EPS6 then 1 else rv) := by positivity
    refine ⟨?_, ?_, ?_, ?_⟩
    · exact mul_nonneg (by linarith) (le_of_lt hscale)
    · -- u-axis upper bound
      by_cases hcase : ru < EPS6
      · have h1 : q.1 - listMin (uvs.map Prod.fst) ≤ 1 := by
          simp only at hq1u ⊢; linarith
        have h2 : 1 / max (if ru < EPS6 then 1 else ru)
            (if rv < EPS6 then 1 else rv) ≤ 1 := by
          rw [div_le_one hmaxpos]
          calc (1 : ℝ) = (if ru < EPS6 then 1 else ru) := by
                rw [if_pos hcase]
            _ ≤ _ := le_max_left _ _
        calc (q.1 - listMin (uvs.map Prod.fst)) *
              (1 / max (if ru < EPS6 then 1 else ru)
                (if rv < EPS6 then 1 else rv))
            ≤ 1 * 1 := by
              apply mul_le_mul h1 h2 (le_of_lt hscale) zero_le_one
          _ = 1 := one_mul 1
      · have hrupw : ru = (if ru < EPS6 then 1 else ru) := (if_neg hcase).symm
        have hle : q.1 - listMin (uvs.map Prod.fst) ≤
            max (if ru < EPS6 then 1 else ru) (if rv < EPS6 then 1 else rv) := by
          calc q.1 - listMin (uvs.map Prod.fst) ≤ ru := by
                rw [hru]; linarith
            _ = _ := hrupw
            _ ≤ _ := le_max_left _ _
        rw [mul_one_div, div_le_one hmaxpos]
        exact hle
    · exact mul_nonneg (by linarith) (le_of_lt hscale)
    · -- v-axis upper bound
      by_cases hcase : rv < EPS6
      · have h1 : q.2 - listMin (uvs.map Prod.snd) ≤ 1 := by
          simp only at hq2u ⊢; linarith
        have h2 : 1 / max (if ru < EPS6 then 1 else ru)
            (if rv < EPS6 then 1 else rv) ≤ 1 := by
          rw [div_le_one hmaxpos]
          calc (1 : ℝ) = (if rv < EPS6 then 1 else rv) := by
                rw [if_pos hcase]
            _ ≤ _ := le_max_right _ _
        calc (q.2 - listMin (uvs.map Prod.snd)) *
              (1 / max (if ru < EPS6 then 1 else ru)
                (if rv < EPS6 then 1 else rv))
            ≤ 1 * 1 := by
              apply mul_le_mul h1 h2 (le_of_lt hscale) zero_le_one
          _ = 1 := one_mul 1
      · have hrvph : rv = (if rv < EPS6 then 1 else rv) := (if_neg hcase).symm
        have hle : q.2 - listMin (uvs.map Prod.snd) ≤
            max (if ru < EPS6 then 1 else ru) (if rv < EPS6 then 1 else rv) := by
          calc q.2 - listMin (uvs.map Prod.snd) ≤ rv := by
                rw [hrv]; linarith
            _ = _ := hrvph
            _ ≤ _ := le_max_right _ _
        rw [mul_one_div, div_le_one hmaxpos]
        exact hle

lemma mkIslandOf_ok (uvs : List (ℝ × ℝ)) (iid : ℤ) (verts : List ℕ)
    (hlt : ∀ v ∈ verts, v < uvs.length) (hnodup : verts.Nodup)
    (huv : ∀ p ∈ uvs, 0 ≤ p.1 ∧ p.1 ≤ 1 ∧ 0 ≤ p.2 ∧ p.2 ≤ 1) :
    IslandOK (uvs.length : ℝ) (mkIslandOf uvs iid verts) := by
  have hEps : (0 : ℝ) < EPS6 := by norm_num [EPS6]
  have hEps1 : EPS6 ≤ 1 := by norm_num [EPS6]
  have hFM : (0 : ℝ) ≤ FLT_MAX := by norm_num [FLT_MAX]
  have hFM1 : -FLT_MAX ≤ (1 : ℝ) := by norm_num [FLT_MAX]
  have husb : ∀ x ∈ verts.map (fun v => (uvs.getD v (0, 0)).1),
      0 ≤ x ∧ x ≤ 1 := by
    intro x hx
    obtain ⟨v, hv, rfl⟩ := List.mem_map.mp hx
    have := huv (uvs.getD v (0, 0)) (@getD_mem _ uvs v (0, 0) (hlt v hv))
    exact ⟨this.1, this.2.1⟩
  have hvsb : ∀ x ∈ verts.map (fun v => (uvs.getD v (0, 0)).2),
      0 ≤ x ∧ x ≤ 1 := by
    intro x hx
    obtain ⟨v, hv, rfl⟩ := List.mem_map.mp hx
    have := huv (uvs.getD v (0, 0)) (@getD_mem _ uvs v (0, 0) (hlt v hv))
    exact ⟨this.2.2.1, this.2.2.2⟩
  have hlen : (verts.length : ℝ) ≤ (uvs.length : ℝ) := by
    have hsub : verts.toFinset ⊆ Finset.range uvs.length := by
      intro v hv
      exact Finset.mem_range.mpr (hlt v (List.mem_toFinset.mp hv))
    have := Finset.card_le_card hsub
    rw [Finset.card_range, List.toFinset_card_of_nodup hnodup] at this
    exact_mod_cast this
  -- generic per-axis facts
  have axis : ∀ vals : List ℝ, (∀ x ∈ vals, 0 ≤ x ∧ x ≤ 1) →
      (0 ≤ (if verts = [] then (0 : ℝ) else listMin vals)) ∧
      ((if verts = [] then (0 : ℝ) else listMax vals) ≤ 1) := by
    intro vals hvals
    constructor
    · split
      · exact le_refl 0
      · exact le_foldl_min vals FLT_MAX hFM (fun x hx => (hvals x hx).1)
    · split
      · exact zero_le_one
      · exact foldl_max_le vals (-FLT_MAX) hFM1 (fun x hx => (hvals x hx).2)
  obtain ⟨humin, humax⟩ := axis _ husb
  obtain ⟨hvmin, hvmax⟩ := axis _ hvsb
  unfold mkIslandOf IslandOK
  dsimp only
  set minU := (if verts = [] then (0 : ℝ)
    else listMin (verts.map (fun v => (uvs.getD v (0, 0)).1))) with hminU
  set maxU := (if verts = [] then (0 : ℝ)
    else listMax (verts.map (fun v => (uvs.getD v (0, 0)).1))) with hmaxU
  set minV := (if verts = [] then (0 : ℝ)
    else listMin (verts.map (fun v => (uvs.getD v (0, 0)).2))) with hminV
  set maxV := (if verts = [] then (0 : ℝ)
    else listMax (verts.map (fun v => (uvs.getD v (0, 0)).2))) with hmaxV
  refine ⟨?_, ?_, ?_, ?_, humin, hvmin, hlen⟩
  · split
    · exact le_of_lt hEps
    · rename_i hcase; push_neg at hcase; linarith
  · split
    · exact hEps1
    · linarith
  · split
    · exact le_of_lt hEps
    · rename_i hcase; push_neg at hcase; linarith
  · split
    · exact hEps1
    · linarith

lemma mkIsland_ok (m : Mesh) (r : UnwrapResult) (iid : ℤ)
    (huv : ∀ p ∈ m.uvs, 0 ≤ p.1 ∧ p.1 ≤ 1 ∧ 0 ≤ p.2 ∧ p.2 ≤ 1) :
    IslandOK (m.uvs.length : ℝ) (mkIsland m r iid) := by
  unfold mkIsland
  refine mkIslandOf_ok _ _ _ ?_ ?_ huv
  · intro v hv
    have := List.mem_filter.mp hv
    exact of_decide_eq_true this.2
  · refine List.Nodup.filter _ ?_
    unfold islandVertexList
    exact (List.perm_insertionSort _ _).nodup_iff.mpr (List.nodup_dedup _)

lemma shelfStep_spec (margin : ℝ) (hm : 0 ≤ margin) (hm2 : margin ≤ 1 / 2)
    (s : ShelfState) (I : Island) (C K : ℝ) (_hC : 0 ≤ C)
    (hx : 0 ≤ s.curX) (hy : 0 ≤ s.curY) (hh : 0 ≤ s.shelfH)
    (hsum : s.curX + s.curY + s.shelfH ≤ C)
    (hI : IslandOK K I) :
    (0 ≤ (shelfStep margin s I).curX ∧ 0 ≤ (shelfStep margin s I).curY ∧
     0 ≤ (shelfStep margin s I).shelfH ∧
     (shelfStep margin s I).curX + (shelfStep margin s I).curY +
       (shelfStep margin s I).shelfH ≤ C + 4) ∧
    (∀ J ∈ (shelfStep margin s I).placed, J ∈ s.placed ∨
      (J.target_x ≤ C + 4 ∧ J.target_y ≤ C + 4 ∧ IslandOK K J)) := by
  obtain ⟨hw0, hw1, hh0, hh1, hmu, hmv, hK⟩ := hI
  unfold shelfStep
  dsimp only
  by_cases hcond : 1 - margin < s.curX + (I.width + margin) ∧ margin < s.curX
  · rw [if_pos hcond]
    dsimp only
    have hfh : (0 : ℝ) ≤ I.height + margin := by linarith
    have hmax : max (0 : ℝ) (I.height + margin) = I.height + margin :=
      max_eq_right hfh
    constructor
    · refine ⟨by linarith, by linarith, le_max_left _ _, ?_⟩
      rw [hmax]
      linarith [hcond.2]
    · intro J hJ
      rcases List.mem_append.mp hJ with h | h
      · exact Or.inl h
      · right
        simp only [List.mem_singleton] at h
        subst h
        refine ⟨by simp only; linarith, by simp only; linarith [hcond.2], ?_⟩
        exact ⟨hw0, hw1, hh0, hh1, hmu, hmv, hK⟩
  · rw [if_neg hcond]
    constructor
    · refine ⟨by linarith, hy, le_trans hh (le_max_left _ _), ?_⟩
      have : max s.shelfH (I.height + margin) ≤ s.shelfH + (I.height + margin) := by
        apply max_le
        · linarith
        · linarith
      linarith
    · intro J hJ
      rcases List.mem_append.mp hJ with h | h
      · exact Or.inl h
      · right
        simp only [List.mem_singleton] at h
        subst h
        refine ⟨by simp only; linarith, by simp only; linarith, ?_⟩
        exact ⟨hw0, hw1, hh0, hh1, hmu, hmv, hK⟩

lemma shelfFold_spec (margin : ℝ) (hm : 0 ≤ margin) (hm2 : margin ≤ 1 / 2)
    (K : ℝ) (L : List Island) :
    ∀ (s : ShelfState) (C : ℝ), 0 ≤ C →
      0 ≤ s.curX → 0 ≤ s.curY → 0 ≤ s.shelfH →
      s.curX + s.curY + s.shelfH ≤ C →
      (∀ I ∈ L, IslandOK K I) →
      ∀ J ∈ (L.foldl (shelfStep margin) s).placed,
        J ∈ s.placed ∨
        (J.target_x ≤ C + 4 * L.length ∧ J.target_y ≤ C + 4 * L.length ∧
         IslandOK K J) := by
  induction L with
  | nil =>
    intro s C _ _ _ _ _ _ J hJ
    exact Or.inl hJ
  | cons I rest ih =>
    intro s C hC hx hy hh hsum hL J hJ
    rw [List.foldl_cons] at hJ
    obtain ⟨⟨hx2, hy2, hh2, hsum2⟩, hplaced⟩ :=
      shelfStep_spec margin hm hm2 s I C K hC hx hy hh hsum
        (hL I (List.mem_cons_self I rest))
    have hrest : ∀ I2 ∈ rest, IslandOK K I2 :=
      fun I2 hI2 => hL I2 (List.mem_cons_of_mem I hI2)
    have hlen0 : (0 : ℝ) ≤ (rest.length : ℝ) := Nat.cast_nonneg _
    have hcast : (((I :: rest).length : ℕ) : ℝ) = (rest.length : ℝ) + 1 := by
      push_cast [List.length_cons]; ring
    rcases ih (shelfStep margin s I) (C + 4) (by linarith) hx2 hy2 hh2 hsum2
        hrest J hJ with hmem | ⟨h1, h2, h3⟩
    · rcases hplaced J hmem with h | ⟨h1, h2, h3⟩
      · exact Or.inl h
      · right
        rw [hcast]
        exact ⟨by linarith, by linarith, h3⟩
    · right
      rw [hcast]
      exact ⟨by linarith, by linarith, h3⟩

lemma shelfFold_placed_length (margin : ℝ) :
    ∀ (L : List Island) (s : ShelfState),
      ((L.foldl (shelfStep margin) s).placed).length =
        s.placed.length + L.length
  | [], s => by simp
  | I :: rest, s => by
    rw [List.foldl_cons, shelfFold_placed_length margin rest]
    have hstep : ((shelfStep margin s I).placed).length =
        s.placed.length + 1 := by
      unfold shelfStep
      dsimp only
      split <;> simp
    rw [hstep, List.length_cons]
    omega

/-- Claim C6: after `pack_uv_islands` on a mesh whose per-vertex UVs
lie in `[0,1]²` (each island was normalized there by LSCM), every UV in
the buffer lies in `[0,1]²` inclusive, for every margin in `[0, 1/2)`
and every island count in the range of a 32-bit `int` (likewise for the
vertex count). -/
theorem C6_packing_containment (m : Mesh) (r : UnwrapResult) (margin : ℝ)
    (hm : 0 ≤ margin) (hm2 : margin < 1 / 2)
    (hN : r.num_islands ≤ 2 ^ 31) (hV : m.uvs.length ≤ 2 ^ 31)
    (huv : ∀ p ∈ m.uvs, 0 ≤ p.1 ∧ p.1 ≤ 1 ∧ 0 ≤ p.2 ∧ p.2 ≤ 1) :
    ∀ p ∈ packUVIslands m r margin,
      0 ≤ p.1 ∧ p.1 ≤ 1 ∧ 0 ≤ p.2 ∧ p.2 ≤ 1 := by
  unfold packUVIslands
  by_cases hsingle : r.num_islands ≤ 1
  · rw [if_pos hsingle]; exact huv
  · rw [if_neg hsingle]
    unfold shelfPack
    set L0 := (List.range r.num_islands.toNat).map
      (fun i : ℕ => mkIsland m r (i : ℤ)) with hL0
    set LS := L0.insertionSort islandLE with hLS
    set V : ℝ := (m.uvs.length : ℝ) with hVdef
    have hV0 : 0 ≤ V := Nat.cast_nonneg _
    have hOK : ∀ I ∈ LS, IslandOK V I := by
      intro I hI
      have : I ∈ L0 := (List.perm_insertionSort islandLE L0).mem_iff.mp hI
      obtain ⟨i, _, rfl⟩ := List.mem_map.mp this
      exact mkIsland_ok m r i huv
    set T : ℝ := 1 + 4 * (LS.length : ℝ) with hT
    have hT0 : 0 ≤ T := by
      have : (0 : ℝ) ≤ (LS.length : ℝ) := Nat.cast_nonneg _
      rw [hT]; linarith
    have hplaced := shelfFold_spec margin hm (le_of_lt hm2) V LS
      ⟨margin, margin, 0, []⟩ 1 zero_le_one hm hm le_rfl
      (by dsimp only; linarith) hOK
    have hplaced2 : ∀ J ∈ (LS.foldl (shelfStep margin)
        ⟨margin, margin, 0, []⟩).placed,
        J.target_x ≤ T ∧ J.target_y ≤ T ∧ IslandOK V J := by
      intro J hJ
      rcases hplaced J hJ with h | ⟨h1, h2, h3⟩
      · simp at h
      · exact ⟨by rw [hT]; linarith, by rw [hT]; linarith, h3⟩
    have hb0 : UVBound 1 m.uvs := fun p hp => ⟨(huv p hp).2.1, (huv p hp).2.2.2⟩
    set placed := (LS.foldl (shelfStep margin)
      ⟨margin, margin, 0, []⟩).placed with hplc
    have hbmoved : UVBound (1 + (placed.length : ℝ) * (V * T))
        (placed.foldl applyIsland m.uvs) :=
      islandsFold_bound T V hT0 hV0 placed m.uvs 1 zero_le_one hplaced2 hb0
    -- numeric bound: the coordinates stay far below FLT_MAX
    have hlenplaced : (placed.length : ℝ) = (LS.length : ℝ) := by
      rw [hplc, shelfFold_placed_length]
      simp
    have hLSlen : (LS.length : ℝ) ≤ 2 ^ 31 := by
      rw [hLS]
      rw [List.length_insertionSort, hL0, List.length_map, List.length_range]
      have h1 : r.num_islands.toNat ≤ 2 ^ 31 := by
        rw [Int.toNat_le]
        exact_mod_cast hN
      exact_mod_cast h1
    have hVle : V ≤ 2 ^ 31 := by
      rw [hVdef]
      exact_mod_cast hV
    have hLSlen0 : (0 : ℝ) ≤ (LS.length : ℝ) := Nat.cast_nonneg _
    have hB : 1 + (placed.length : ℝ) * (V * T) < FLT_MAX := by
      rw [hlenplaced, hT]
      have hbig : (1 : ℝ) + 2 ^ 31 * (2 ^ 31 * (1 + 4 * 2 ^ 31)) < FLT_MAX := by
        norm_num [FLT_MAX]
      have h1 : 1 + 4 * (LS.length : ℝ) ≤ 1 + 4 * 2 ^ 31 := by linarith
      have h2 : V * (1 + 4 * (LS.length : ℝ)) ≤ 2 ^ 31 * (1 + 4 * 2 ^ 31) :=
        mul_le_mul hVle h1 (by linarith) (by norm_num)
      have h3 : (LS.length : ℝ) * (V * (1 + 4 * (LS.length : ℝ))) ≤
          2 ^ 31 * (2 ^ 31 * (1 + 4 * 2 ^ 31)) :=
        mul_le_mul hLSlen h2 (mul_nonneg hV0 (by linarith)) (by norm_num)
      linarith
    exact rescaleUVs_bounds hB hbmoved

/-- A one-vertex, one-island instance of claim C6: with a single
island, `pack_uv_islands` leaves the buffer untouched and the bounds
carry over. -/
def packMesh1 : Mesh := ⟨[(0, 0, 0)], [], [((0 : ℝ), 0)]⟩

theorem C6_witness :
    ((0 : ℝ) ≤ 0) ∧
    ∀ p ∈ packUVIslands packMesh1 ⟨none, 1⟩ 0,
      0 ≤ p.1 ∧ p.1 ≤ 1 ∧ 0 ≤ p.2 ∧ p.2 ≤ 1 :=
  ⟨le_rfl,
    C6_packing_containment packMesh1 ⟨none, 1⟩ 0 le_rfl
      (by norm_num) (by norm_num) (by norm_num [packMesh1])
      (by intro p hp; simp [packMesh1] at hp; simp [hp])⟩

/-! ## LSCM (`lscm.cpp`) -/

/-- The literal `1e-12` of the degenerate-triangle guard (idealised as
the exact rational). -/
noncomputable def EPS12 : ℝ := 1 / 1000000000000

/-- Step 1 of `lscm_parameterize`: the `local_to_global` array — the
distinct global vertex indices of the face subset, in first-visit
order. -/
def localToGlobal (faces : List Tri) : List ℕ :=
  faces.foldl (fun acc t =>
    let acc1 := if t.1 ∈ acc then acc else acc ++ [t.1]
    let acc2 := if t.2.1 ∈ acc1 then acc1 else acc1 ++ [t.2.1]
    if t.2.2 ∈ acc2 then acc2 else acc2 ++ [t.2.2]) []

/-- `find_boundary_vertices` (`lscm.cpp`): the sorted set of endpoints
of the edges that occur exactly once in the face subset. -/
def boundaryVertices (faces : List Tri) : List ℕ :=
  let entries := edgeEntries faces
  let keys := (entries.map Prod.fst).dedup
  let bkeys := keys.filter (fun e => entries.countP (fun p => p.1 = e) = 1)
  ((bkeys.flatMap (fun e => [e.1, e.2])).dedup).insertionSort (· ≤ ·)

/-- The per-triangle geometry of the LSCM assembly: twice the area, and
the local 2D coordinates of the two triangle edges as pairs (the
complex numbers `cij`, `cik` of the C code, as (re, im)).  `normalized()`
is modelled as division by the norm; for the degenerate triangles on
which that norm is zero the result is discarded by the area guard. -/
noncomputable def triangleData (m : Mesh) (t : Tri) : ℝ × (ℝ × ℝ) × (ℝ × ℝ) :=
  let pa := pos3 m t.1
  let pb := pos3 m t.2.1
  let pc := pos3 m t.2.2
  let e0 := sub3 pb pa
  let e1 := sub3 pc pa
  let nrm := cross3 e0 e1
  let area2 := norm3 nrm
  let ex := (e0.1 / norm3 e0, e0.2.1 / norm3 e0, e0.2.2 / norm3 e0)
  let ey0 := cross3 nrm ex
  let ey := (ey0.1 / norm3 ey0, ey0.2.1 / norm3 ey0, ey0.2.2 / norm3 ey0)
  (area2, (dot3 e0 ex, dot3 e0 ey), (dot3 e1 ex, dot3 e1 ey))

/-- Real part of `a * conj(b)` for complex numbers given as (re, im)
pairs — the `std::complex` arithmetic of `add_block`, expanded into
real components. -/
noncomputable def prodRe (a b : ℝ × ℝ) : ℝ := a.1 * b.1 + a.2 * b.2

/-- Imaginary part of `a * conj(b)`. -/
noncomputable def prodIm (a b : ℝ × ℝ) : ℝ := a.2 * b.1 - a.1 * b.2

/-- The four triplets `add_block` emits for one ordered vertex pair,
summed into the entry at `(rr, cc)`: `A[u_i,u_j] += σ`,
`A[u_i,v_j] += −τ`, `A[v_i,u_j] += τ`, `A[v_i,v_j] += σ` with
`u_k = local_k` and `v_k = n + local_k`. -/
noncomputable def blockTerm (n li lj : ℕ) (s : ℝ × ℝ) (rr cc : ℕ) : ℝ :=
  (if rr = li ∧ cc = lj then s.1 else 0) +
  (if rr = li ∧ cc = n + lj then -s.2 else 0) +
  (if rr = n + li ∧ cc = lj then s.2 else 0) +
  (if rr = n + li ∧ cc = n + lj then s.1 else 0)

/-- The contribution of one triangle to the matrix entry `(rr, cc)`:
zero for a degenerate triangle (twice-area below 1e-12), otherwise the
nine 2×2 blocks `(w·c_i)·conj(c_j)` with `w = 1/(0.5·area2)` and
`c = (−cij−cik, cij, cik)` at the triangle's local indices. -/
noncomputable def faceContrib (m : Mesh) (l2g : List ℕ) (n : ℕ) (t : Tri)
    (rr cc : ℕ) : ℝ :=
  let td := triangleData m t
  if td.1 < EPS12 then 0
  else
    let w := 1 / (0.5 * td.1)
    let cij := td.2.1
    let cik := td.2.2
    let cf : Fin 3 → ℝ × ℝ :=
      ![(-cij.1 - cik.1, -cij.2 - cik.2), cij, cik]
    let lo : Fin 3 → ℕ :=
      ![l2g.indexOf t.1, l2g.indexOf t.2.1, l2g.indexOf t.2.2]
    ∑ i : Fin 3, ∑ j : Fin 3,
      blockTerm n (lo i) (lo j)
        (w * prodRe (cf i) (cf j), w * prodIm (cf i) (cf j)) rr cc

/-- The assembled LSCM operator (`setFromTriplets` sums duplicate
entries, so the entry is the sum of all face contributions). -/
noncomputable def assembleA (m : Mesh) (faces : List Tri) (l2g : List ℕ)
    (n : ℕ) (rr cc : ℕ) : ℝ :=
  ∑ fi ∈ Finset.range faces.length,
    faceContrib m l2g n (faces.getD fi (0, 0, 0)) rr cc

/-- One iteration of the Dirichlet boundary-condition loop: zero the
row, set the diagonal to 1, zero the column (other rows), and write the
pin value into the right-hand side. -/
noncomputable def pinStep (Ab : (ℕ → ℕ → ℝ) × (ℕ → ℝ)) (rv : ℕ × ℝ) :
    (ℕ → ℕ → ℝ) × (ℕ → ℝ) :=
  (fun r c => if r = rv.1 then (if c = rv.1 then 1 else 0)
              else if c = rv.1 then 0 else Ab.1 r c,
   fun r => if r = rv.1 then rv.2 else Ab.2 r)

/-- The pinned system: the fixed rows are processed in program order
over the zero right-hand side (so a repeated row keeps the last
value). -/
noncomputable def pinnedSystem (A : ℕ → ℕ → ℝ) (pins : List (ℕ × ℝ)) :
    (ℕ → ℕ → ℝ) × (ℕ → ℝ) :=
  pins.foldl pinStep (A, fun _ => 0)

/-- Step 3 of `lscm_parameterize`: pin selection.  Defaults are local 0
and local n/2; when at least two boundary vertices exist (and map into
the island), pin0 is the first of them and pin1 the first one at
maximal squared 3D distance from pin0 (strict improvement, so ties keep
the earlier candidate). -/
noncomputable def selectPins (m : Mesh) (faces : List Tri) (l2g : List ℕ)
    (n : ℕ) : ℕ × ℕ :=
  let p0d := 0
  let p1d := if 1 < n then n / 2 else 0
  let b := boundaryVertices faces
  if 2 ≤ b.length then
    let bl := b.filterMap (fun g => if g ∈ l2g then some (l2g.indexOf g) else none)
    if 2 ≤ bl.length then
      let pin0 := bl.headD 0
      let p0pos := pos3 m (l2g.getD pin0 0)
      (pin0,
        (bl.foldl (fun st x =>
          let px := pos3 m (l2g.getD x 0)
          let d := dot3 (sub3 px p0pos) (sub3 px p0pos)
          if st.2 < d then (x, d) else st) (pin0, -1)).1)
    else (p0d, p1d)
  else (p0d, p1d)

open Classical in
/-- Eigen's `SparseLU` factorize-and-solve pair, modelled as an exact
oracle: it succeeds precisely when the `n × n` system has a unique
solution (a singular matrix makes `factorize`/`solve` report
non-success), and then returns that solution, padded with zeros beyond
`n`. -/
noncomputable def solveLU (n : ℕ) (A : ℕ → ℕ → ℝ) (b : ℕ → ℝ) :
    Option (ℕ → ℝ) :=
  if h : ∃! x : ℕ → ℝ,
      (∀ r < n, ∑ c ∈ Finset.range n, A r c * x c = b r) ∧
      (∀ r, n ≤ r → x r = 0)
  then some h.choose else none

/-- `lscm_parameterize` (`lscm.cpp`): null/empty input or an island
with fewer than 3 distinct vertices is rejected; otherwise the LSCM
system is assembled, pinned at `(u0,v0) = (0,0)` and `(u1,v1) = (1,0)`,
solved by sparse LU, extracted as interleaved (u,v) pairs and finally
normalized to the unit square. -/
noncomputable def lscmParameterize (m : Mesh) (faces : List Tri) :
    Option (List (ℝ × ℝ)) :=
  if faces.length = 0 then none
  else
    let l2g := localToGlobal faces
    let n := l2g.length
    if n < 3 then none
    else
      let A := assembleA m faces l2g n
      let pins := selectPins m faces l2g n
      let Ab := pinnedSystem A
        [(pins.1, 0), (n + pins.1, 0), (pins.2, 1), (n + pins.2, 0)]
      match solveLU (2 * n) Ab.1 Ab.2 with
      | none => none
      | some x =>
        some (normalizeUVs ((List.range n).map (fun i => (x i, x (n + i)))))

/-- Whether the pinned LSCM system of an island admits a unique
solution — the success condition of the modelled LU solver. -/
noncomputable def lscmSolvable (m : Mesh) (faces : List Tri) : Prop :=
  let l2g := localToGlobal faces
  let n := l2g.length
  let A := assembleA m faces l2g n
  let pins := selectPins m faces l2g n
  let Ab := pinnedSystem A
    [(pins.1, 0), (n + pins.1, 0), (pins.2, 1), (n + pins.2, 0)]
  ∃! x : ℕ → ℝ,
    (∀ r < 2 * n, ∑ c ∈ Finset.range (2 * n), Ab.1 r c * x c = Ab.2 r) ∧
    (∀ r, 2 * n ≤ r → x r = 0)

/-- The value the pinning loop leaves in the right-hand side at row
`r`: the last pinned value for `r`, or the default. -/
noncomputable def pinVal (pins : List (ℕ × ℝ)) (r : ℕ) (dflt : ℝ) : ℝ :=
  pins.foldl (fun acc p => if p.1 = r then p.2 else acc) dflt

lemma pinnedSystem_rhs :
    ∀ (pins : List (ℕ × ℝ)) (A : ℕ → ℕ → ℝ) (b : ℕ → ℝ) (r : ℕ),
      (pins.foldl pinStep (A, b)).2 r = pinVal pins r (b r)
  | [], _, _, _ => rfl
  | p :: rest, A, b, r => by
    rw [List.foldl_cons]
    rw [pinnedSystem_rhs rest]
    unfold pinVal
    rw [List.foldl_cons]
    congr 1
    show (if r = p.1 then p.2 else b r) = (if p.1 = r then p.2 else b r)
    by_cases h : r = p.1
    · rw [if_pos h, if_pos h.symm]
    · rw [if_neg h, if_neg (fun hc => h hc.symm)]

lemma pinnedSystem_mat :
    ∀ (pins : List (ℕ × ℝ)) (A : ℕ → ℕ → ℝ) (b : ℕ → ℝ) (r c : ℕ),
      (pins.foldl pinStep (A, b)).1 r c =
        if r ∈ pins.map Prod.fst then (if c = r then 1 else 0)
        else if c ∈ pins.map Prod.fst then 0 else A r c
  | [], _, _, r, c => by simp
  | p :: rest, A, b, r, c => by
    rw [List.foldl_cons, pinnedSystem_mat rest]
    simp only [List.map_cons, List.mem_cons, pinStep]
    by_cases hr : r ∈ rest.map Prod.fst
    · simp [hr]
    · by_cases hrp : r = p.1
      · by_cases hc : c ∈ rest.map Prod.fst
        · have hcr : ¬ c = r := fun hcr => hr (hcr ▸ hc)
          have hcp : ¬ c = p.1 := fun h => hcr (h.trans hrp.symm)
          simp [hr, hrp, hc, hcr, hcp]
        · simp [hr, hrp, hc]
      · by_cases hc : c ∈ rest.map Prod.fst
        · simp [hr, hrp, hc]
        · by_cases hcp : c = p.1
          · simp [hr, hrp, hc, hcp]
          · simp [hr, hrp, hc, hcp]

/-- The candidate solution after pinning: `1` in the `u` slot of pin1,
`0` everywhere else (the column-zeroing decouples every unpinned
unknown from the pinned values, so the zero vector solves the unpinned
part). -/
noncomputable def xStar (p1 : ℕ) : ℕ → ℝ := fun r => if r = p1 then 1 else 0

lemma pinVal_eval (n p0 p1 r : ℕ) :
    pinVal [(p0, 0), (n + p0, 0), (p1, 1), (n + p1, 0)] r 0 =
      if n + p1 = r then 0 else if p1 = r then 1 else 0 := by
  unfold pinVal
  simp only [List.foldl_cons, List.foldl_nil, ite_self]

lemma xStar_solves (A : ℕ → ℕ → ℝ) (n p0 p1 : ℕ)
    (hn : 0 < n) (_hp0 : p0 < n) (hp1 : p1 < n) :
    (∀ r < 2 * n,
      ∑ c ∈ Finset.range (2 * n),
        (pinnedSystem A [(p0, 0), (n + p0, 0), (p1, 1), (n + p1, 0)]).1 r c *
          xStar p1 c =
        (pinnedSystem A [(p0, 0), (n + p0, 0), (p1, 1), (n + p1, 0)]).2 r) ∧
    (∀ r, 2 * n ≤ r → xStar p1 r = 0) := by
  constructor
  · intro r _
    have hsum : ∑ c ∈ Finset.range (2 * n),
        (pinnedSystem A [(p0, 0), (n + p0, 0), (p1, 1), (n + p1, 0)]).1 r c *
          xStar p1 c =
        (pinnedSystem A [(p0, 0), (n + p0, 0), (p1, 1), (n + p1, 0)]).1 r p1 := by
      have : ∀ c ∈ Finset.range (2 * n),
          (pinnedSystem A [(p0, 0), (n + p0, 0), (p1, 1), (n + p1, 0)]).1 r c *
            xStar p1 c =
          if c = p1 then
            (pinnedSystem A [(p0, 0), (n + p0, 0), (p1, 1), (n + p1, 0)]).1 r c
          else 0 := by
        intro c _
        unfold xStar
        by_cases h : c = p1 <;> simp [h]
      rw [Finset.sum_congr rfl this, Finset.sum_ite_eq']
      rw [if_pos (Finset.mem_range.mpr (by omega))]
    rw [hsum]
    unfold pinnedSystem
    rw [pinnedSystem_mat, pinnedSystem_rhs, pinVal_eval]
    have hp1mem : p1 ∈ ([(p0, (0 : ℝ)), (n + p0, 0), (p1, 1), (n + p1, 0)]).map
        Prod.fst := by simp
    by_cases h1 : p1 = r
    · subst h1
      simp [hp1mem, hn.ne']
    · simp [h1, hp1mem]
  · intro r hr
    unfold xStar
    rw [if_neg (by omega)]

lemma getD_map_range {α : Type} (f : ℕ → α) {n i : ℕ} (h : i < n) (d : α) :
    ((List.range n).map f).getD i d = f i := by
  rw [List.getD_eq_getElem?_getD,
    List.getElem?_eq_getElem (by simpa using h)]
  simp

/-- The UV list produced by a successful solve — `(1,0)` at `p1`,
`(0,0)` everywhere else — is a fixed point of the normalization: its
u-range is exactly 1 and its v-range degenerate. -/
lemma normalize_indicator (n p1 : ℕ) (hn : 3 ≤ n) (hp1 : p1 < n) :
    normalizeUVs ((List.range n).map
      (fun i => ((if i = p1 then (1 : ℝ) else 0), (0 : ℝ)))) =
    (List.range n).map (fun i => ((if i = p1 then (1 : ℝ) else 0), (0 : ℝ))) := by
  have hFM : (0 : ℝ) ≤ FLT_MAX := by norm_num [FLT_MAX]
  have hFM1 : -FLT_MAX ≤ (0 : ℝ) := by norm_num [FLT_MAX]
  set L := (List.range n).map
    (fun i => ((if i = p1 then (1 : ℝ) else 0), (0 : ℝ))) with hL
  have hlen : ¬ L.length = 0 := by
    rw [hL, List.length_map, List.length_range]; omega
  have hufst : L.map Prod.fst =
      (List.range n).map (fun i => (if i = p1 then (1 : ℝ) else 0)) := by
    rw [hL, List.map_map]
    rfl
  have hvsnd : L.map Prod.snd = (List.range n).map (fun _ => (0 : ℝ)) := by
    rw [hL, List.map_map]
    rfl
  have humem1 : (1 : ℝ) ∈ L.map Prod.fst := by
    rw [hufst]
    exact List.mem_map.mpr ⟨p1, List.mem_range.mpr hp1, by simp⟩
  have humem0 : (0 : ℝ) ∈ L.map Prod.fst := by
    rw [hufst]
    refine List.mem_map.mpr ⟨if p1 = 0 then 1 else 0, ?_, ?_⟩
    · refine List.mem_range.mpr ?_
      split <;> omega
    · split <;> rename_i hcase
      · rw [if_neg (by omega)]
      · rw [if_neg (by intro hc; exact hcase hc.symm)]
  have hubound : ∀ x ∈ L.map Prod.fst, 0 ≤ x ∧ x ≤ 1 := by
    rw [hufst]
    intro x hx
    obtain ⟨i, _, rfl⟩ := List.mem_map.mp hx
    split <;> norm_num
  have humin : listMin (L.map Prod.fst) = 0 := by
    refine le_antisymm (foldl_min_le_of_mem _ FLT_MAX humem0) ?_
    exact le_foldl_min _ FLT_MAX hFM (fun x hx => (hubound x hx).1)
  have humax : listMax (L.map Prod.fst) = 1 := by
    refine le_antisymm ?_ (mem_le_foldl_max _ (-FLT_MAX) humem1)
    exact foldl_max_le _ (-FLT_MAX) (by norm_num [FLT_MAX])
      (fun x hx => (hubound x hx).2)
  have hvmem0 : (0 : ℝ) ∈ L.map Prod.snd := by
    rw [hvsnd]
    exact List.mem_map.mpr ⟨0, List.mem_range.mpr (by omega), rfl⟩
  have hvbound : ∀ x ∈ L.map Prod.snd, x = 0 := by
    rw [hvsnd]
    intro x hx
    obtain ⟨i, _, rfl⟩ := List.mem_map.mp hx
    rfl
  have hvmin : listMin (L.map Prod.snd) = 0 := by
    refine le_antisymm (foldl_min_le_of_mem _ FLT_MAX hvmem0) ?_
    exact le_foldl_min _ FLT_MAX hFM (fun x hx => le_of_eq (hvbound x hx).symm)
  have hvmax : listMax (L.map Prod.snd) = 0 := by
    refine le_antisymm ?_ (mem_le_foldl_max _ (-FLT_MAX) hvmem0)
    exact foldl_max_le _ (-FLT_MAX) hFM1 (fun x hx => le_of_eq (hvbound x hx))
  have huR : axisRange (L.map Prod.fst) = 1 := by
    unfold axisRange
    rw [humin, humax, if_neg (by norm_num [EPS6])]
    norm_num
  have hvR : axisRange (L.map Prod.snd) = 1 := by
    unfold axisRange
    rw [hvmin, hvmax, if_pos (by norm_num [EPS6])]
  rw [normalizeUVs, if_neg hlen]
  have hid : ∀ q ∈ L,
      (normAxis (L.map Prod.fst) q.1, normAxis (L.map Prod.snd) q.2) = q := by
    intro q _
    unfold normAxis
    rw [humin, huR, hvmin, hvR]
    simp
  calc L.map (fun q => (normAxis (L.map Prod.fst) q.1,
        normAxis (L.map Prod.snd) q.2))
      = L.map id := List.map_congr_left hid
    _ = L := List.map_id _

lemma argmax_mem (f : ℕ → ℝ) :
    ∀ (l : List ℕ) (st : ℕ × ℝ),
      (l.foldl (fun st x => if st.2 < f x then (x, f x) else st) st).1 = st.1 ∨
      (l.foldl (fun st x => if st.2 < f x then (x, f x) else st) st).1 ∈ l
  | [], _ => Or.inl rfl
  | x :: rest, st => by
    rw [List.foldl_cons]
    rcases argmax_mem f rest (if st.2 < f x then (x, f x) else st) with h | h
    · rw [h]
      by_cases hc : st.2 < f x
      · rw [if_pos hc]
        exact Or.inr (List.mem_cons_self x rest)
      · rw [if_neg hc]
        exact Or.inl rfl
    · exact Or.inr (List.mem_cons_of_mem x h)

lemma selectPins_lt (m : Mesh) (faces : List Tri) (l2g : List ℕ)
    (hn : 0 < l2g.length) :
    (selectPins m faces l2g l2g.length).1 < l2g.length ∧
    (selectPins m faces l2g l2g.length).2 < l2g.length := by
  unfold selectPins
  dsimp only
  have hdefault : (0 < l2g.length) ∧
      ((if 1 < l2g.length then l2g.length / 2 else 0) < l2g.length) := by
    refine ⟨hn, ?_⟩
    split <;> omega
  split
  · rename_i hb
    split
    · rename_i hbl
      set bl := (boundaryVertices faces).filterMap
        (fun g => if g ∈ l2g then some (l2g.indexOf g) else none) with hbldef
      have hblmem : ∀ x ∈ bl, x < l2g.length := by
        intro x hx
        rw [hbldef] at hx
        obtain ⟨g, _, hg⟩ := List.mem_filterMap.mp hx
        by_cases hmem : g ∈ l2g
        · rw [if_pos hmem] at hg
          cases hg
          exact List.indexOf_lt_length.mpr hmem
        · rw [if_neg hmem] at hg
          cases hg
      have hblne : bl ≠ [] := by
        intro hnil
        rw [hnil] at hbl
        simp at hbl
      have hhead : bl.headD 0 ∈ bl := by
        cases hbl2 : bl with
        | nil => exact absurd hbl2 hblne
        | cons a t => simp
      constructor
      · exact hblmem _ hhead
      · rcases argmax_mem
          (fun x => dot3 (sub3 (pos3 m (l2g.getD x 0))
              (pos3 m (l2g.getD (bl.headD 0) 0)))
            (sub3 (pos3 m (l2g.getD x 0))
              (pos3 m (l2g.getD (bl.headD 0) 0))))
          bl (bl.headD 0, -1) with h | h
        · rw [h]
          exact hblmem _ hhead
        · exact hblmem _ h
    · exact hdefault
  · exact hdefault

/-- Claim C1 (amended): whenever `lscm_parameterize` succeeds, the
returned (already normalized) UV array has exactly `(1, 0)` at pin1,
and exactly `(0, 0)` at pin0 provided the two pins are distinct.  (When
the boundary heuristic selects the same local vertex twice — all
boundary vertices at one 3D position — the later Dirichlet write wins
and the single pinned vertex receives `(1, 0)` rather than `(0, 0)`.)
Exact equality implies the claimed 1e-6 tolerance. -/
theorem C1_pin_values (m : Mesh) (faces : List Tri) (uvs : List (ℝ × ℝ))
    (h : lscmParameterize m faces = some uvs) :
    uvs.getD (selectPins m faces (localToGlobal faces)
      (localToGlobal faces).length).2 (0, 0) = (1, 0) ∧
    ((selectPins m faces (localToGlobal faces)
        (localToGlobal faces).length).1 ≠
      (selectPins m faces (localToGlobal faces)
        (localToGlobal faces).length).2 →
      uvs.getD (selectPins m faces (localToGlobal faces)
        (localToGlobal faces).length).1 (0, 0) = (0, 0)) := by
  by_cases hf : faces.length = 0
  · rw [lscmParameterize, if_pos hf] at h
    exact absurd h (by simp)
  · rw [lscmParameterize, if_neg hf] at h
    dsimp only at h
    by_cases hn3 : (localToGlobal faces).length < 3
    · rw [if_pos hn3] at h
      exact absurd h (by simp)
    · rw [if_neg hn3] at h
      push_neg at hn3
      have hp := selectPins_lt m faces (localToGlobal faces) (by omega)
      cases hsol : solveLU (2 * (localToGlobal faces).length)
          (pinnedSystem
            (assembleA m faces (localToGlobal faces)
              (localToGlobal faces).length)
            [((selectPins m faces (localToGlobal faces)
                (localToGlobal faces).length).1, 0),
             ((localToGlobal faces).length +
               (selectPins m faces (localToGlobal faces)
                 (localToGlobal faces).length).1, 0),
             ((selectPins m faces (localToGlobal faces)
                (localToGlobal faces).length).2, 1),
             ((localToGlobal faces).length +
               (selectPins m faces (localToGlobal faces)
                 (localToGlobal faces).length).2, 0)]).1
          (pinnedSystem
            (assembleA m faces (localToGlobal faces)
              (localToGlobal faces).length)
            [((selectPins m faces (localToGlobal faces)
                (localToGlobal faces).length).1, 0),
             ((localToGlobal faces).length +
               (selectPins m faces (localToGlobal faces)
                 (localToGlobal faces).length).1, 0),
             ((selectPins m faces (localToGlobal faces)
                (localToGlobal faces).length).2, 1),
             ((localToGlobal faces).length +
               (selectPins m faces (localToGlobal faces)
                 (localToGlobal faces).length).2, 0)]).2 with
      | none =>
        rw [hsol] at h
        exact absurd h (by simp)
      | some x =>
        rw [hsol] at h
        dsimp only at h
        have huvs : uvs = normalizeUVs (((List.range
            (localToGlobal faces).length)).map
            (fun i => (x i, x ((localToGlobal faces).length + i)))) := by
          exact (Option.some.inj h).symm
        unfold solveLU at hsol
        split at hsol
        · rename_i hex
          have hx : hex.choose = x := Option.some.inj hsol
          have hxs := xStar_solves
            (assembleA m faces (localToGlobal faces)
              (localToGlobal faces).length)
            (localToGlobal faces).length
            (selectPins m faces (localToGlobal faces)
              (localToGlobal faces).length).1
            (selectPins m faces (localToGlobal faces)
              (localToGlobal faces).length).2
            (by omega) hp.1 hp.2
          have hxeq : x = xStar (selectPins m faces (localToGlobal faces)
              (localToGlobal faces).length).2 := by
            rw [← hx]
            exact (hex.choose_spec.2 _ hxs).symm
          rw [hxeq] at huvs
          have hmapeq : ((List.range (localToGlobal faces).length)).map
              (fun i => (xStar (selectPins m faces (localToGlobal faces)
                  (localToGlobal faces).length).2 i,
                xStar (selectPins m faces (localToGlobal faces)
                  (localToGlobal faces).length).2
                  ((localToGlobal faces).length + i))) =
              (List.range (localToGlobal faces).length).map
              (fun i => ((if i = (selectPins m faces (localToGlobal faces)
                  (localToGlobal faces).length).2 then (1 : ℝ) else 0),
                (0 : ℝ))) := by
            refine List.map_congr_left ?_
            intro i _
            unfold xStar
            rw [if_neg (show ¬ (localToGlobal faces).length + i =
              (selectPins m faces (localToGlobal faces)
                (localToGlobal faces).length).2 by have := hp.2; omega)]
          rw [hmapeq, normalize_indicator _ _ hn3 hp.2] at huvs
          subst huvs
          constructor
          · rw [getD_map_range _ hp.2]
            simp
          · intro hne
            rw [getD_map_range _ hp.1]
            rw [if_neg hne]
        · exact absurd hsol (by simp)

lemma solveLU_none_iff (n : ℕ) (A : ℕ → ℕ → ℝ) (b : ℕ → ℝ) :
    solveLU n A b = none ↔
      ¬ ∃! x : ℕ → ℝ,
        (∀ r < n, ∑ c ∈ Finset.range n, A r c * x c = b r) ∧
        (∀ r, n ≤ r → x r = 0) := by
  unfold solveLU
  split
  · rename_i h
    simp [h]
  · rename_i h
    simp [h]

lemma assembleA_degenerate (m : Mesh) (faces : List Tri) (l2g : List ℕ)
    (n : ℕ)
    (hdeg : ∀ fi < faces.length,
      (triangleData m (faces.getD fi (0, 0, 0))).1 < EPS12) :
    ∀ r c, assembleA m faces l2g n r c = 0 := by
  intro r c
  unfold assembleA
  refine Finset.sum_eq_zero ?_
  intro fi hfi
  unfold faceContrib
  rw [if_pos (hdeg fi (Finset.mem_range.mp hfi))]

/-- Claim C9: `lscm_parameterize` rejects an island (returns null)
exactly when the face subset has fewer than 3 distinct vertices or the
pinned linear system has no unique solution (the modelled LU failure);
and an island all of whose triangles are degenerate (twice-area below
1e-12) is always rejected, because the assembled operator is zero and
the pinned system singular.  On rejection no UV array is produced. -/
theorem C9_rejection (m : Mesh) (faces : List Tri) :
    (lscmParameterize m faces = none ↔
      (localToGlobal faces).length < 3 ∨ ¬ lscmSolvable m faces) ∧
    ((3 ≤ (localToGlobal faces).length ∧
        ∀ fi < faces.length,
          (triangleData m (faces.getD fi (0, 0, 0))).1 < EPS12) →
      lscmParameterize m faces = none) := by
  have hiff : lscmParameterize m faces = none ↔
      (localToGlobal faces).length < 3 ∨ ¬ lscmSolvable m faces := by
    by_cases hf : faces.length = 0
    · have hfn : faces = [] := List.length_eq_zero.mp hf
      subst hfn
      simp [lscmParameterize, localToGlobal]
    · rw [lscmParameterize, if_neg hf]
      dsimp only
      by_cases hn3 : (localToGlobal faces).length < 3
      · rw [if_pos hn3]
        simp [hn3]
      · rw [if_neg hn3]
        unfold lscmSolvable
        dsimp only
        split
        · rename_i hsol
          have hns := (solveLU_none_iff _ _ _).mp hsol
          simp [hn3, hns]
        · rename_i x hsol
          unfold solveLU at hsol
          split at hsol
          · rename_i hex
            simp [hn3, hex]
          · exact absurd hsol (by simp)
  refine ⟨hiff, ?_⟩
  rintro ⟨hn3, hdeg⟩
  refine hiff.mpr (Or.inr ?_)
  have hp := selectPins_lt m faces (localToGlobal faces) (by omega)
  have hA := assembleA_degenerate m faces (localToGlobal faces)
    (localToGlobal faces).length hdeg
  unfold lscmSolvable
  dsimp only
  intro hex
  obtain ⟨x0, hx0, huniq⟩ := hex
  set n := (localToGlobal faces).length with hNdef
  set P0 := (selectPins m faces (localToGlobal faces) n).1 with hP0def
  set P1 := (selectPins m faces (localToGlobal faces) n).2 with hP1def
  -- a free column index: not pinned, inside the island
  obtain ⟨c0, hc0n, hc0P0, hc0P1⟩ :
      ∃ c0, c0 < n ∧ c0 ≠ P0 ∧ c0 ≠ P1 := by
    by_cases ha : 0 ≠ P0 ∧ 0 ≠ P1
    · exact ⟨0, by omega, ha.1, ha.2⟩
    · push_neg at ha
      by_cases hb : 1 ≠ P0 ∧ 1 ≠ P1
      · exact ⟨1, by omega, hb.1, hb.2⟩
      · push_neg at hb
        refine ⟨2, by omega, ?_, ?_⟩
        · by_cases h0 : (0 : ℕ) = P0
          · omega
          · have h1 := ha h0
            omega
        · by_cases h0 : (0 : ℕ) = P0
          · have h1 : ¬ (1 : ℕ) = P0 := by omega
            have h2 := hb h1
            omega
          · have h1 := ha h0
            omega
  have hsolves := xStar_solves
    (assembleA m faces (localToGlobal faces) n) n P0 P1 (by omega) hp.1 hp.2
  have hcol : ∀ r,
      (pinnedSystem (assembleA m faces (localToGlobal faces) n)
        [(P0, 0), (n + P0, 0), (P1, 1), (n + P1, 0)]).1 r c0 = 0 := by
    intro r
    unfold pinnedSystem
    rw [pinnedSystem_mat]
    have hc0mem : c0 ∉ ([(P0, (0 : ℝ)), (n + P0, 0), (P1, 1),
        (n + P1, 0)]).map Prod.fst := by
      simp only [List.map_cons, List.map_nil, List.mem_cons,
        List.not_mem_nil, or_false]
      push_neg
      refine ⟨hc0P0, by omega, hc0P1, by omega⟩
    by_cases hr : r ∈ ([(P0, (0 : ℝ)), (n + P0, 0), (P1, 1),
        (n + P1, 0)]).map Prod.fst
    · rw [if_pos hr, if_neg (fun hc => hc0mem (by rw [hc]; exact hr))]
    · rw [if_neg hr, if_neg hc0mem, hA]
  -- the second solution: bump the free coordinate by 1
  have hsolves2 :
      (∀ r < 2 * n, ∑ c ∈ Finset.range (2 * n),
        (pinnedSystem (assembleA m faces (localToGlobal faces) n)
          [(P0, 0), (n + P0, 0), (P1, 1), (n + P1, 0)]).1 r c *
          (xStar P1 c + (if c = c0 then 1 else 0)) =
        (pinnedSystem (assembleA m faces (localToGlobal faces) n)
          [(P0, 0), (n + P0, 0), (P1, 1), (n + P1, 0)]).2 r) ∧
      (∀ r, 2 * n ≤ r →
        xStar P1 r + (if r = c0 then 1 else 0) = 0) := by
    constructor
    · intro r hr
      have hbase := hsolves.1 r hr
      have hsplit : ∑ c ∈ Finset.range (2 * n),
          (pinnedSystem (assembleA m faces (localToGlobal faces) n)
            [(P0, 0), (n + P0, 0), (P1, 1), (n + P1, 0)]).1 r c *
            (xStar P1 c + (if c = c0 then 1 else 0)) =
          (∑ c ∈ Finset.range (2 * n),
            (pinnedSystem (assembleA m faces (localToGlobal faces) n)
              [(P0, 0), (n + P0, 0), (P1, 1), (n + P1, 0)]).1 r c *
              xStar P1 c) +
          (∑ c ∈ Finset.range (2 * n),
            (pinnedSystem (assembleA m faces (localToGlobal faces) n)
              [(P0, 0), (n + P0, 0), (P1, 1), (n + P1, 0)]).1 r c *
              (if c = c0 then 1 else 0)) := by
        rw [← Finset.sum_add_distrib]
        exact Finset.sum_congr rfl (fun c _ => mul_add _ _ _)
      rw [hsplit, hbase]
      have hzero : ∑ c ∈ Finset.range (2 * n),
          (pinnedSystem (assembleA m faces (localToGlobal faces) n)
            [(P0, 0), (n + P0, 0), (P1, 1), (n + P1, 0)]).1 r c *
            (if c = c0 then 1 else 0) = 0 := by
        have hterm : ∀ c ∈ Finset.range (2 * n),
            (pinnedSystem (assembleA m faces (localToGlobal faces) n)
              [(P0, 0), (n + P0, 0), (P1, 1), (n + P1, 0)]).1 r c *
              (if c = c0 then 1 else 0) =
            if c = c0 then
              (pinnedSystem (assembleA m faces (localToGlobal faces) n)
                [(P0, 0), (n + P0, 0), (P1, 1), (n + P1, 0)]).1 r c
            else 0 := by
          intro c _
          by_cases hc : c = c0 <;> simp [hc]
        rw [Finset.sum_congr rfl hterm, Finset.sum_ite_eq']
        rw [if_pos (Finset.mem_range.mpr (by omega))]
        exact hcol r
      rw [hzero, add_zero]
    · intro r hr
      have h1 := hsolves.2 r hr
      rw [h1, if_neg (by omega), add_zero]
  have heq1 := huniq (xStar P1) hsolves
  have heq2 := huniq (fun r => xStar P1 r + (if r = c0 then 1 else 0)) hsolves2
  have : xStar P1 c0 + (if c0 = c0 then (1 : ℝ) else 0) = xStar P1 c0 := by
    conv_rhs => rw [heq1]
    exact congrFun heq2 c0
  rw [if_pos rfl] at this
  linarith

/-! ### A concrete island on which the two pins coincide

Two coincident vertices at the origin plus the standard basis points
`(1,0,0)` and `(0,1,0)`; five faces arranged so that the only boundary
edge is `(0,1)`, both of whose endpoints sit at the origin.  The pin
heuristic then selects local vertex 0 twice, and the later Dirichlet
write `(u1,v1) = (1,0)` overwrites the earlier `(u0,v0) = (0,0)`. -/
def pinFaces : List Tri := [(0, 1, 2), (0, 2, 3), (0, 3, 2), (1, 2, 3), (1, 3, 2)]

/-- The mesh carrying `pinFaces`: vertices 0 and 1 coincide at the
origin. -/
def pinMesh : Mesh :=
  ⟨[(0, 0, 0), (0, 0, 0), (1, 0, 0), (0, 1, 0)], pinFaces, []⟩

lemma pinFaces_l2g : localToGlobal pinFaces = [0, 1, 2, 3] := by decide

lemma pinFaces_boundary : boundaryVertices pinFaces = [0, 1] := by decide

lemma pinMesh_pins : selectPins pinMesh pinFaces [0, 1, 2, 3] 4 = (0, 0) := by
  unfold selectPins
  rw [pinFaces_boundary]
  rw [if_pos (by norm_num)]
  dsimp only
  have hbl : (([0, 1] : List ℕ).filterMap
      (fun g => if g ∈ ([0, 1, 2, 3] : List ℕ)
        then some (([0, 1, 2, 3] : List ℕ).indexOf g) else none)) = [0, 1] := by
    decide
  rw [hbl]
  rw [if_pos (by norm_num)]
  simp only [List.headD, List.foldl_cons, List.foldl_nil, List.getD, pos3,
    pinMesh, sub3, dot3]
  norm_num

lemma pinMesh_tdA : (triangleData pinMesh ((0 : ℕ), (1 : ℕ), (2 : ℕ))).1 = 0 := by
  unfold triangleData
  dsimp only
  simp only [pos3, pinMesh, sub3, cross3, dot3, norm3, List.getD_cons_zero,
    List.getD_cons_succ]
  norm_num

lemma pinMesh_tdB :
    triangleData pinMesh ((0 : ℕ), (2 : ℕ), (3 : ℕ)) =
      (1, (1, 0), (0, 1)) := by
  unfold triangleData
  dsimp only
  simp only [pos3, pinMesh, sub3, cross3, dot3, norm3, List.getD_cons_zero,
    List.getD_cons_succ]
  norm_num

lemma pinMesh_tdC :
    triangleData pinMesh ((0 : ℕ), (3 : ℕ), (2 : ℕ)) =
      (1, (1, 0), (0, 1)) := by
  unfold triangleData
  dsimp only
  simp only [pos3, pinMesh, sub3, cross3, dot3, norm3, List.getD_cons_zero,
    List.getD_cons_succ]
  norm_num

lemma pinMesh_tdD :
    triangleData pinMesh ((1 : ℕ), (2 : ℕ), (3 : ℕ)) =
      (1, (1, 0), (0, 1)) := by
  unfold triangleData
  dsimp only
  simp only [pos3, pinMesh, sub3, cross3, dot3, norm3, List.getD_cons_zero,
    List.getD_cons_succ]
  norm_num

lemma pinMesh_tdE :
    triangleData pinMesh ((1 : ℕ), (3 : ℕ), (2 : ℕ)) =
      (1, (1, 0), (0, 1)) := by
  unfold triangleData
  dsimp only
  simp only [pos3, pinMesh, sub3, cross3, dot3, norm3, List.getD_cons_zero,
    List.getD_cons_succ]
  norm_num

lemma pinMesh_fcA (rr cc : ℕ) :
    faceContrib pinMesh [0, 1, 2, 3] 4 ((0 : ℕ), (1 : ℕ), (2 : ℕ)) rr cc =
      0 := by
  unfold faceContrib
  dsimp only
  rw [pinMesh_tdA]
  rw [if_pos (by norm_num [EPS12])]

lemma pinMesh_fcB (rr cc : ℕ) :
    faceContrib pinMesh [0, 1, 2, 3] 4 ((0 : ℕ), (2 : ℕ), (3 : ℕ)) rr cc =
      blockTerm 4 0 0 (4, 0) rr cc + blockTerm 4 0 2 (-2, -2) rr cc +
        blockTerm 4 0 3 (-2, 2) rr cc +
      (blockTerm 4 2 0 (-2, 2) rr cc + blockTerm 4 2 2 (2, 0) rr cc +
        blockTerm 4 2 3 (0, -2) rr cc) +
      (blockTerm 4 3 0 (-2, -2) rr cc + blockTerm 4 3 2 (0, 2) rr cc +
        blockTerm 4 3 3 (2, 0) rr cc) := by
  unfold faceContrib
  dsimp only
  rw [pinMesh_tdB]
  rw [if_neg (by norm_num [EPS12])]
  simp only [Fin.sum_univ_three, Matrix.cons_val_zero, Matrix.cons_val_one,
    Matrix.head_cons, Matrix.cons_val_two, Matrix.tail_cons]
  norm_num [prodRe, prodIm,
    (by decide : ([0, 1, 2, 3] : List ℕ).indexOf 0 = 0),
    (by decide : ([0, 1, 2, 3] : List ℕ).indexOf 2 = 2),
    (by decide : ([0, 1, 2, 3] : List ℕ).indexOf 3 = 3)]

lemma pinMesh_fcC (rr cc : ℕ) :
    faceContrib pinMesh [0, 1, 2, 3] 4 ((0 : ℕ), (3 : ℕ), (2 : ℕ)) rr cc =
      blockTerm 4 0 0 (4, 0) rr cc + blockTerm 4 0 3 (-2, -2) rr cc +
        blockTerm 4 0 2 (-2, 2) rr cc +
      (blockTerm 4 3 0 (-2, 2) rr cc + blockTerm 4 3 3 (2, 0) rr cc +
        blockTerm 4 3 2 (0, -2) rr cc) +
      (blockTerm 4 2 0 (-2, -2) rr cc + blockTerm 4 2 3 (0, 2) rr cc +
        blockTerm 4 2 2 (2, 0) rr cc) := by
  unfold faceContrib
  dsimp only
  rw [pinMesh_tdC]
  rw [if_neg (by norm_num [EPS12])]
  simp only [Fin.sum_univ_three, Matrix.cons_val_zero, Matrix.cons_val_one,
    Matrix.head_cons, Matrix.cons_val_two, Matrix.tail_cons]
  norm_num [prodRe, prodIm,
    (by decide : ([0, 1, 2, 3] : List ℕ).indexOf 0 = 0),
    (by decide : ([0, 1, 2, 3] : List ℕ).indexOf 2 = 2),
    (by decide : ([0, 1, 2, 3] : List ℕ).indexOf 3 = 3)]

lemma pinMesh_fcD (rr cc : ℕ) :
    faceContrib pinMesh [0, 1, 2, 3] 4 ((1 : ℕ), (2 : ℕ), (3 : ℕ)) rr cc =
      blockTerm 4 1 1 (4, 0) rr cc + blockTerm 4 1 2 (-2, -2) rr cc +
        blockTerm 4 1 3 (-2, 2) rr cc +
      (blockTerm 4 2 1 (-2, 2) rr cc + blockTerm 4 2 2 (2, 0) rr cc +
        blockTerm 4 2 3 (0, -2) rr cc) +
      (blockTerm 4 3 1 (-2, -2) rr cc + blockTerm 4 3 2 (0, 2) rr cc +
        blockTerm 4 3 3 (2, 0) rr cc) := by
  unfold faceContrib
  dsimp only
  rw [pinMesh_tdD]
  rw [if_neg (by norm_num [EPS12])]
  simp only [Fin.sum_univ_three, Matrix.cons_val_zero, Matrix.cons_val_one,
    Matrix.head_cons, Matrix.cons_val_two, Matrix.tail_cons]
  norm_num [prodRe, prodIm,
    (by decide : ([0, 1, 2, 3] : List ℕ).indexOf 1 = 1),
    (by decide : ([0, 1, 2, 3] : List ℕ).indexOf 2 = 2),
    (by decide : ([0, 1, 2, 3] : List ℕ).indexOf 3 = 3)]

lemma pinMesh_fcE (rr cc : ℕ) :
    faceContrib pinMesh [0, 1, 2, 3] 4 ((1 : ℕ), (3 : ℕ), (2 : ℕ)) rr cc =
      blockTerm 4 1 1 (4, 0) rr cc + blockTerm 4 1 3 (-2, -2) rr cc +
        blockTerm 4 1 2 (-2, 2) rr cc +
      (blockTerm 4 3 1 (-2, 2) rr cc + blockTerm 4 3 3 (2, 0) rr cc +
        blockTerm 4 3 2 (0, -2) rr cc) +
      (blockTerm 4 2 1 (-2, -2) rr cc + blockTerm 4 2 3 (0, 2) rr cc +
        blockTerm 4 2 2 (2, 0) rr cc) := by
  unfold faceContrib
  dsimp only
  rw [pinMesh_tdE]
  rw [if_neg (by norm_num [EPS12])]
  simp only [Fin.sum_univ_three, Matrix.cons_val_zero, Matrix.cons_val_one,
    Matrix.head_cons, Matrix.cons_val_two, Matrix.tail_cons]
  norm_num [prodRe, prodIm,
    (by decide : ([0, 1, 2, 3] : List ℕ).indexOf 1 = 1),
    (by decide : ([0, 1, 2, 3] : List ℕ).indexOf 2 = 2),
    (by decide : ([0, 1, 2, 3] : List ℕ).indexOf 3 = 3)]

lemma pinMesh_A (rr cc : ℕ) :
    assembleA pinMesh pinFaces [0, 1, 2, 3] 4 rr cc =
      (blockTerm 4 0 0 (4, 0) rr cc + blockTerm 4 0 2 (-2, -2) rr cc +
        blockTerm 4 0 3 (-2, 2) rr cc +
       blockTerm 4 2 0 (-2, 2) rr cc + blockTerm 4 2 2 (2, 0) rr cc +
        blockTerm 4 2 3 (0, -2) rr cc +
       blockTerm 4 3 0 (-2, -2) rr cc + blockTerm 4 3 2 (0, 2) rr cc +
        blockTerm 4 3 3 (2, 0) rr cc) +
      (blockTerm 4 0 0 (4, 0) rr cc + blockTerm 4 0 3 (-2, -2) rr cc +
        blockTerm 4 0 2 (-2, 2) rr cc +
       blockTerm 4 3 0 (-2, 2) rr cc + blockTerm 4 3 3 (2, 0) rr cc +
        blockTerm 4 3 2 (0, -2) rr cc +
       blockTerm 4 2 0 (-2, -2) rr cc + blockTerm 4 2 3 (0, 2) rr cc +
        blockTerm 4 2 2 (2, 0) rr cc) +
      (blockTerm 4 1 1 (4, 0) rr cc + blockTerm 4 1 2 (-2, -2) rr cc +
        blockTerm 4 1 3 (-2, 2) rr cc +
       blockTerm 4 2 1 (-2, 2) rr cc + blockTerm 4 2 2 (2, 0) rr cc +
        blockTerm 4 2 3 (0, -2) rr cc +
       blockTerm 4 3 1 (-2, -2) rr cc + blockTerm 4 3 2 (0, 2) rr cc +
        blockTerm 4 3 3 (2, 0) rr cc) +
      (blockTerm 4 1 1 (4, 0) rr cc + blockTerm 4 1 3 (-2, -2) rr cc +
        blockTerm 4 1 2 (-2, 2) rr cc +
       blockTerm 4 3 1 (-2, 2) rr cc + blockTerm 4 3 3 (2, 0) rr cc +
        blockTerm 4 3 2 (0, -2) rr cc +
       blockTerm 4 2 1 (-2, -2) rr cc + blockTerm 4 2 3 (0, 2) rr cc +
        blockTerm 4 2 2 (2, 0) rr cc) := by
  unfold assembleA
  rw [show pinFaces.length = 5 from rfl]
  rw [Finset.sum_range_succ, Finset.sum_range_succ, Finset.sum_range_succ,
    Finset.sum_range_succ, Finset.sum_range_succ, Finset.sum_range_zero]
  rw [show pinFaces.getD 0 (0, 0, 0) = ((0 : ℕ), (1 : ℕ), (2 : ℕ)) from rfl,
    show pinFaces.getD 1 (0, 0, 0) = ((0 : ℕ), (2 : ℕ), (3 : ℕ)) from rfl,
    show pinFaces.getD 2 (0, 0, 0) = ((0 : ℕ), (3 : ℕ), (2 : ℕ)) from rfl,
    show pinFaces.getD 3 (0, 0, 0) = ((1 : ℕ), (2 : ℕ), (3 : ℕ)) from rfl,
    show pinFaces.getD 4 (0, 0, 0) = ((1 : ℕ), (3 : ℕ), (2 : ℕ)) from rfl]
  rw [pinMesh_fcA, pinMesh_fcB, pinMesh_fcC, pinMesh_fcD, pinMesh_fcE]
  ring

lemma pinAp (r c : ℕ) (hr0 : r ≠ 0) (hr4 : r ≠ 4) :
    (pinnedSystem (assembleA pinMesh pinFaces [0, 1, 2, 3] 4)
      [(0, 0), (4, 0), (0, 1), (4, 0)]).1 r c =
    if c = 0 ∨ c = 4 then 0
    else assembleA pinMesh pinFaces [0, 1, 2, 3] 4 r c := by
  unfold pinnedSystem
  rw [pinnedSystem_mat]
  have hrm : r ∉ ([((0 : ℕ), (0 : ℝ)), (4, 0), (0, 1), (4, 0)]).map
      Prod.fst := by
    simp only [List.map_cons, List.map_nil, List.mem_cons, List.not_mem_nil,
      or_false]
    push_neg
    exact ⟨hr0, hr4, hr0, hr4⟩
  rw [if_neg hrm]
  by_cases hc : c = 0 ∨ c = 4
  · rw [if_pos (by simp only [List.map_cons, List.map_nil, List.mem_cons,
      List.not_mem_nil, or_false]; tauto), if_pos hc]
  · rw [if_neg (by simp only [List.map_cons, List.map_nil, List.mem_cons,
      List.not_mem_nil, or_false]; tauto), if_neg hc]

lemma pinRow1 (y : ℕ → ℝ) :
    ∑ c ∈ Finset.range 8,
      (pinnedSystem (assembleA pinMesh pinFaces [0, 1, 2, 3] 4)
        [(0, 0), (4, 0), (0, 1), (4, 0)]).1 1 c * y c =
      8 * y 1 - 4 * y 2 - 4 * y 3 := by
  rw [Finset.sum_range_succ, Finset.sum_range_succ, Finset.sum_range_succ,
    Finset.sum_range_succ, Finset.sum_range_succ, Finset.sum_range_succ,
    Finset.sum_range_succ, Finset.sum_range_succ, Finset.sum_range_zero]
  rw [pinAp 1 0 (by norm_num) (by norm_num),
    pinAp 1 1 (by norm_num) (by norm_num),
    pinAp 1 2 (by norm_num) (by norm_num),
    pinAp 1 3 (by norm_num) (by norm_num),
    pinAp 1 4 (by norm_num) (by norm_num),
    pinAp 1 5 (by norm_num) (by norm_num),
    pinAp 1 6 (by norm_num) (by norm_num),
    pinAp 1 7 (by norm_num) (by norm_num)]
  norm_num
  simp only [pinMesh_A]
  norm_num [blockTerm]
  ring

lemma pinRow2 (y : ℕ → ℝ) :
    ∑ c ∈ Finset.range 8,
      (pinnedSystem (assembleA pinMesh pinFaces [0, 1, 2, 3] 4)
        [(0, 0), (4, 0), (0, 1), (4, 0)]).1 2 c * y c =
      -4 * y 1 + 8 * y 2 := by
  rw [Finset.sum_range_succ, Finset.sum_range_succ, Finset.sum_range_succ,
    Finset.sum_range_succ, Finset.sum_range_succ, Finset.sum_range_succ,
    Finset.sum_range_succ, Finset.sum_range_succ, Finset.sum_range_zero]
  rw [pinAp 2 0 (by norm_num) (by norm_num),
    pinAp 2 1 (by norm_num) (by norm_num),
    pinAp 2 2 (by norm_num) (by norm_num),
    pinAp 2 3 (by norm_num) (by norm_num),
    pinAp 2 4 (by norm_num) (by norm_num),
    pinAp 2 5 (by norm_num) (by norm_num),
    pinAp 2 6 (by norm_num) (by norm_num),
    pinAp 2 7 (by norm_num) (by norm_num)]
  norm_num
  simp only [pinMesh_A]
  norm_num [blockTerm]

lemma pinRow3 (y : ℕ → ℝ) :
    ∑ c ∈ Finset.range 8,
      (pinnedSystem (assembleA pinMesh pinFaces [0, 1, 2, 3] 4)
        [(0, 0), (4, 0), (0, 1), (4, 0)]).1 3 c * y c =
      -4 * y 1 + 8 * y 3 := by
  rw [Finset.sum_range_succ, Finset.sum_range_succ, Finset.sum_range_succ,
    Finset.sum_range_succ, Finset.sum_range_succ, Finset.sum_range_succ,
    Finset.sum_range_succ, Finset.sum_range_succ, Finset.sum_range_zero]
  rw [pinAp 3 0 (by norm_num) (by norm_num),
    pinAp 3 1 (by norm_num) (by norm_num),
    pinAp 3 2 (by norm_num) (by norm_num),
    pinAp 3 3 (by norm_num) (by norm_num),
    pinAp 3 4 (by norm_num) (by norm_num),
    pinAp 3 5 (by norm_num) (by norm_num),
    pinAp 3 6 (by norm_num) (by norm_num),
    pinAp 3 7 (by norm_num) (by norm_num)]
  norm_num
  simp only [pinMesh_A]
  norm_num [blockTerm]

lemma pinRow5 (y : ℕ → ℝ) :
    ∑ c ∈ Finset.range 8,
      (pinnedSystem (assembleA pinMesh pinFaces [0, 1, 2, 3] 4)
        [(0, 0), (4, 0), (0, 1), (4, 0)]).1 5 c * y c =
      8 * y 5 - 4 * y 6 - 4 * y 7 := by
  rw [Finset.sum_range_succ, Finset.sum_range_succ, Finset.sum_range_succ,
    Finset.sum_range_succ, Finset.sum_range_succ, Finset.sum_range_succ,
    Finset.sum_range_succ, Finset.sum_range_succ, Finset.sum_range_zero]
  rw [pinAp 5 0 (by norm_num) (by norm_num),
    pinAp 5 1 (by norm_num) (by norm_num),
    pinAp 5 2 (by norm_num) (by norm_num),
    pinAp 5 3 (by norm_num) (by norm_num),
    pinAp 5 4 (by norm_num) (by norm_num),
    pinAp 5 5 (by norm_num) (by norm_num),
    pinAp 5 6 (by norm_num) (by norm_num),
    pinAp 5 7 (by norm_num) (by norm_num)]
  norm_num
  simp only [pinMesh_A]
  norm_num [blockTerm]
  ring

lemma pinRow6 (y : ℕ → ℝ) :
    ∑ c ∈ Finset.range 8,
      (pinnedSystem (assembleA pinMesh pinFaces [0, 1, 2, 3] 4)
        [(0, 0), (4, 0), (0, 1), (4, 0)]).1 6 c * y c =
      -4 * y 5 + 8 * y 6 := by
  rw [Finset.sum_range_succ, Finset.sum_range_succ, Finset.sum_range_succ,
    Finset.sum_range_succ, Finset.sum_range_succ, Finset.sum_range_succ,
    Finset.sum_range_succ, Finset.sum_range_succ, Finset.sum_range_zero]
  rw [pinAp 6 0 (by norm_num) (by norm_num),
    pinAp 6 1 (by norm_num) (by norm_num),
    pinAp 6 2 (by norm_num) (by norm_num),
    pinAp 6 3 (by norm_num) (by norm_num),
    pinAp 6 4 (by norm_num) (by norm_num),
    pinAp 6 5 (by norm_num) (by norm_num),
    pinAp 6 6 (by norm_num) (by norm_num),
    pinAp 6 7 (by norm_num) (by norm_num)]
  norm_num
  simp only [pinMesh_A]
  norm_num [blockTerm]

lemma pinRow7 (y : ℕ → ℝ) :
    ∑ c ∈ Finset.range 8,
      (pinnedSystem (assembleA pinMesh pinFaces [0, 1, 2, 3] 4)
        [(0, 0), (4, 0), (0, 1), (4, 0)]).1 7 c * y c =
      -4 * y 5 + 8 * y 7 := by
  rw [Finset.sum_range_succ, Finset.sum_range_succ, Finset.sum_range_succ,
    Finset.sum_range_succ, Finset.sum_range_succ, Finset.sum_range_succ,
    Finset.sum_range_succ, Finset.sum_range_succ, Finset.sum_range_zero]
  rw [pinAp 7 0 (by norm_num) (by norm_num),
    pinAp 7 1 (by norm_num) (by norm_num),
    pinAp 7 2 (by norm_num) (by norm_num),
    pinAp 7 3 (by norm_num) (by norm_num),
    pinAp 7 4 (by norm_num) (by norm_num),
    pinAp 7 5 (by norm_num) (by norm_num),
    pinAp 7 6 (by norm_num) (by norm_num),
    pinAp 7 7 (by norm_num) (by norm_num)]
  norm_num
  simp only [pinMesh_A]
  norm_num [blockTerm]

lemma pinnedRow_sum (A : ℕ → ℕ → ℝ) (pins : List (ℕ × ℝ)) (N r : ℕ)
    (y : ℕ → ℝ) (hr : r ∈ pins.map Prod.fst) (hrN : r < N) :
    ∑ c ∈ Finset.range N, (pinnedSystem A pins).1 r c * y c = y r := by
  have hterm : ∀ c ∈ Finset.range N,
      (pinnedSystem A pins).1 r c * y c = if c = r then y c else 0 := by
    intro c _
    unfold pinnedSystem
    rw [pinnedSystem_mat, if_pos hr]
    by_cases h : c = r <;> simp [h]
  rw [Finset.sum_congr rfl hterm, Finset.sum_ite_eq']
  rw [if_pos (Finset.mem_range.mpr hrN)]

lemma pinMesh_solves :
    (∀ r < 8, ∑ c ∈ Finset.range 8,
      (pinnedSystem (assembleA pinMesh pinFaces [0, 1, 2, 3] 4)
        [(0, 0), (4, 0), (0, 1), (4, 0)]).1 r c * xStar 0 c =
      (pinnedSystem (assembleA pinMesh pinFaces [0, 1, 2, 3] 4)
        [(0, 0), (4, 0), (0, 1), (4, 0)]).2 r) ∧
    (∀ r, 8 ≤ r → xStar 0 r = 0) := by
  have h := xStar_solves (assembleA pinMesh pinFaces [0, 1, 2, 3] 4) 4 0 0
    (by norm_num) (by norm_num) (by norm_num)
  norm_num at h
  exact h

lemma pinMesh_rhs (r : ℕ) :
    (pinnedSystem (assembleA pinMesh pinFaces [0, 1, 2, 3] 4)
      [(0, 0), (4, 0), (0, 1), (4, 0)]).2 r = if r = 0 then 1 else 0 := by
  unfold pinnedSystem
  rw [pinnedSystem_rhs]
  simp only [pinVal, List.foldl_cons, List.foldl_nil, ite_self]
  by_cases h0 : r = 0
  · simp [h0]
  · by_cases h4 : r = 4
    · simp [h0, h4]
    · rw [if_neg (fun hc : (4 : ℕ) = r => h4 hc.symm),
        if_neg (fun hc : (0 : ℕ) = r => h0 hc.symm), if_neg h0]

lemma pinMesh_unique :
    ∃! x : ℕ → ℝ,
      (∀ r < 8, ∑ c ∈ Finset.range 8,
        (pinnedSystem (assembleA pinMesh pinFaces [0, 1, 2, 3] 4)
          [(0, 0), (4, 0), (0, 1), (4, 0)]).1 r c * x c =
        (pinnedSystem (assembleA pinMesh pinFaces [0, 1, 2, 3] 4)
          [(0, 0), (4, 0), (0, 1), (4, 0)]).2 r) ∧
      (∀ r, 8 ≤ r → x r = 0) := by
  refine ⟨xStar 0, pinMesh_solves, ?_⟩
  intro y hy
  have h0 : y 0 = 1 := by
    have h := hy.1 0 (by norm_num)
    rw [pinnedRow_sum _ _ 8 0 y (by simp) (by norm_num), pinMesh_rhs 0] at h
    norm_num at h
    exact h
  have h4 : y 4 = 0 := by
    have h := hy.1 4 (by norm_num)
    rw [pinnedRow_sum _ _ 8 4 y (by simp) (by norm_num), pinMesh_rhs 4] at h
    norm_num at h
    exact h
  have e1 := hy.1 1 (by norm_num)
  rw [pinRow1 y, pinMesh_rhs 1] at e1
  norm_num at e1
  have e2 := hy.1 2 (by norm_num)
  rw [pinRow2 y, pinMesh_rhs 2] at e2
  norm_num at e2
  have e3 := hy.1 3 (by norm_num)
  rw [pinRow3 y, pinMesh_rhs 3] at e3
  norm_num at e3
  have e5 := hy.1 5 (by norm_num)
  rw [pinRow5 y, pinMesh_rhs 5] at e5
  norm_num at e5
  have e6 := hy.1 6 (by norm_num)
  rw [pinRow6 y, pinMesh_rhs 6] at e6
  norm_num at e6
  have e7 := hy.1 7 (by norm_num)
  rw [pinRow7 y, pinMesh_rhs 7] at e7
  norm_num at e7
  have hy1 : y 1 = 0 := by linarith
  have hy2 : y 2 = 0 := by linarith
  have hy3 : y 3 = 0 := by linarith
  have hy5 : y 5 = 0 := by linarith
  have hy6 : y 6 = 0 := by linarith
  have hy7 : y 7 = 0 := by linarith
  funext r
  by_cases hr : r < 8
  · interval_cases r
    · simpa [xStar] using h0
    · simpa [xStar] using hy1
    · simpa [xStar] using hy2
    · simpa [xStar] using hy3
    · simpa [xStar] using h4
    · simpa [xStar] using hy5
    · simpa [xStar] using hy6
    · simpa [xStar] using hy7
  · rw [hy.2 r (by omega)]
    unfold xStar
    rw [if_neg (by omega)]

lemma pinMesh_eval :
    lscmParameterize pinMesh pinFaces =
      some [((1 : ℝ), (0 : ℝ)), (0, 0), (0, 0), (0, 0)] := by
  rw [lscmParameterize]
  rw [if_neg (by decide : ¬ pinFaces.length = 0)]
  dsimp only
  rw [pinFaces_l2g]
  rw [show ([0, 1, 2, 3] : List ℕ).length = 4 from rfl]
  rw [if_neg (by norm_num)]
  rw [pinMesh_pins]
  dsimp only
  simp only [Nat.add_zero]
  rw [show (2 * 4 : ℕ) = 8 by norm_num]
  unfold solveLU
  rw [dif_pos pinMesh_unique]
  dsimp only
  have hch : pinMesh_unique.choose = xStar 0 :=
    (pinMesh_unique.choose_spec.2 (xStar 0) pinMesh_solves).symm
  rw [hch]
  have hmap : (List.range 4).map (fun i => (xStar 0 i, xStar 0 (4 + i))) =
      (List.range 4).map (fun i => ((if i = 0 then (1 : ℝ) else 0), (0 : ℝ))) := by
    refine List.map_congr_left ?_
    intro i _
    unfold xStar
    rw [if_neg (by omega : ¬ 4 + i = 0)]
  rw [hmap]
  rw [normalize_indicator 4 0 (by norm_num) (by norm_num)]
  rw [show List.range 4 = [0, 1, 2, 3] from rfl]
  norm_num

/-- Counterexample to claim C1 as stated: on `pinMesh` the boundary
heuristic selects the same local vertex for both pins, the solve
succeeds, and the returned UV of pin0 is `(1, 0)` — its u-coordinate
differs from the claimed `0` by `1`, far beyond the 1e-6 tolerance. -/
theorem C1_counterexample :
    (selectPins pinMesh pinFaces (localToGlobal pinFaces)
        (localToGlobal pinFaces).length).1 =
      (selectPins pinMesh pinFaces (localToGlobal pinFaces)
        (localToGlobal pinFaces).length).2 ∧
    ∃ uvs, lscmParameterize pinMesh pinFaces = some uvs ∧
      ¬ |(uvs.getD (selectPins pinMesh pinFaces (localToGlobal pinFaces)
          (localToGlobal pinFaces).length).1 (0, 0)).1 - 0| ≤ EPS6 := by
  have hsel : selectPins pinMesh pinFaces (localToGlobal pinFaces)
      (localToGlobal pinFaces).length = (0, 0) := by
    rw [pinFaces_l2g, show ([0, 1, 2, 3] : List ℕ).length = 4 from rfl]
    exact pinMesh_pins
  refine ⟨by rw [hsel], [((1 : ℝ), (0 : ℝ)), (0, 0), (0, 0), (0, 0)],
    pinMesh_eval, ?_⟩
  rw [hsel]
  norm_num [EPS6]

/-- Witness for C1 (amended): the claim theorem applied to the concrete
island `pinMesh`/`pinFaces`, whose successful solve is
`pinMesh_eval`. -/
theorem C1_witness :
    ([((1 : ℝ), (0 : ℝ)), (0, 0), (0, 0), (0, 0)] : List (ℝ × ℝ)).getD
      (selectPins pinMesh pinFaces (localToGlobal pinFaces)
        (localToGlobal pinFaces).length).2 (0, 0) = (1, 0) :=
  (C1_pin_values pinMesh pinFaces
    [((1 : ℝ), (0 : ℝ)), (0, 0), (0, 0), (0, 0)] pinMesh_eval).1

/-- A fully degenerate island: one triangle whose three vertices all
sit at the origin, so its twice-area is 0. -/
def flatMesh : Mesh := ⟨[(0, 0, 0), (0, 0, 0), (0, 0, 0)], [(0, 1, 2)], []⟩

lemma flatMesh_deg :
    ∀ fi < (([((0 : ℕ), (1 : ℕ), (2 : ℕ))] : List Tri)).length,
      (triangleData flatMesh
        (([((0 : ℕ), (1 : ℕ), (2 : ℕ))] : List Tri).getD fi (0, 0, 0))).1 <
        EPS12 := by
  intro fi hfi
  have hfi0 : fi = 0 := by
    simp only [List.length_cons, List.length_nil] at hfi
    omega
  subst hfi0
  have h : (triangleData flatMesh ((0 : ℕ), (1 : ℕ), (2 : ℕ))).1 = 0 := by
    unfold triangleData
    dsimp only
    simp only [pos3, flatMesh, sub3, cross3, dot3, norm3, List.getD_cons_zero,
      List.getD_cons_succ]
    norm_num
  rw [show (([((0 : ℕ), (1 : ℕ), (2 : ℕ))] : List Tri).getD 0 (0, 0, 0)) =
    ((0 : ℕ), (1 : ℕ), (2 : ℕ)) from rfl, h]
  norm_num [EPS12]

/-- Witness for C9: the all-degenerate island `flatMesh` has 3 distinct
vertices yet is rejected, by the degeneracy conjunct of the claim
theorem. -/
theorem C9_witness :
    3 ≤ (localToGlobal [((0 : ℕ), (1 : ℕ), (2 : ℕ))]).length ∧
    lscmParameterize flatMesh [(0, 1, 2)] = none :=
  ⟨by decide,
    (C9_rejection flatMesh [(0, 1, 2)]).2 ⟨by decide, flatMesh_deg⟩⟩

end UVUnwrap
